import Mathlib

/-!
Verification development for the go-switcher repository.

Strings are modelled as lists of characters (`List Char`); the Go functions
under test are translated into executable Lean definitions and the spec's
claims are settled as theorems about those definitions.
-/

set_option maxHeartbeats 1000000

namespace GoSwitcher

/-! ## String primitives shared by the models

These mirror the Go standard-library helpers the source uses.
`strings.TrimSpace` is modelled over the ASCII whitespace set (the inputs the
system feeds it — version strings and pin-file contents — are ASCII).
-/

/-- Whitespace predicate used by the `strings.TrimSpace` model (ASCII subset of
`unicode.IsSpace`). -/
def isSpaceChar (c : Char) : Bool :=
  c = ' ' || c = '\t' || c = '\n' || c = '\r' || c = Char.ofNat 11 || c = Char.ofNat 12

/-- Model of `strings.TrimSpace` on character lists. -/
def trimSpace (l : List Char) : List Char :=
  ((l.dropWhile isSpaceChar).reverse.dropWhile isSpaceChar).reverse

/-- Model of `strings.TrimPrefix(s, "go")`: the prefix is removed when present,
otherwise the input is returned unchanged. -/
def trimPrefixGo (l : List Char) : List Char :=
  match l with
  | 'g' :: 'o' :: rest => rest
  | other => other

/-- Model of `strings.Split` with a one-character separator. -/
def splitOnChar (sep : Char) : List Char → List (List Char)
  | [] => [[]]
  | c :: rest =>
    if c = sep then [] :: splitOnChar sep rest
    else
      match splitOnChar sep rest with
      | [] => [[c]]
      | h :: t => (c :: h) :: t

/-- Decimal digit test. -/
def isDigitChar (c : Char) : Bool := '0' ≤ c && c ≤ '9'

/-- Numeric value of a decimal digit character. -/
def digitVal (c : Char) : Nat := c.toNat - 48

/-- Value of a digit string read most-significant first. -/
def digitsToNat (l : List Char) : Nat :=
  l.foldl (fun acc c => acc * 10 + digitVal c) 0

/-- Parse of a non-empty all-digit string. -/
def parseDigits (l : List Char) : Option Nat :=
  if l = [] then none
  else if l.all isDigitChar then some (digitsToNat l) else none

/-- Model of `strconv.Atoi`: an optional sign followed by a non-empty run of
decimal digits (64-bit range overflow is not modelled; the version components
the system feeds it are small). -/
def atoi (l : List Char) : Option Int :=
  match l with
  | [] => none
  | c :: rest =>
    if c = '+' then (parseDigits rest).map (fun n => (n : Int))
    else if c = '-' then (parseDigits rest).map (fun n => -(n : Int))
    else (parseDigits (c :: rest)).map (fun n => (n : Int))

/-- Decimal digit character for a value below ten. -/
def digitChar (d : Nat) : Char :=
  if d = 0 then '0' else if d = 1 then '1' else if d = 2 then '2'
  else if d = 3 then '3' else if d = 4 then '4' else if d = 5 then '5'
  else if d = 6 then '6' else if d = 7 then '7' else if d = 8 then '8' else '9'

/-- Decimal rendering worker: the fuel argument dominates the number of
division steps (any fuel at least the value itself is enough). -/
def natToCharsAux : Nat → Nat → List Char
  | 0, n => [digitChar n]
  | fuel + 1, n =>
    if n < 10 then [digitChar n]
    else natToCharsAux fuel (n / 10) ++ [digitChar (n % 10)]

/-- Decimal rendering of a natural number (the `%d` verb of `fmt.Sprintf`). -/
def natToChars (n : Nat) : List Char := natToCharsAux n n

/-! ## Model of internal/versionutil/version.go -/

/-- Rendering used by `NormalizeGoVersion`'s final
`fmt.Sprintf("go%d.%d.%d", ...)`. -/
def renderGoVersion (a b c : Nat) : List Char :=
  'g' :: 'o' :: (natToChars a ++ '.' :: (natToChars b ++ '.' :: natToChars c))

/-- Component parse step of `NormalizeGoVersion`: `strconv.Atoi` plus the
`n < 0` rejection. -/
def parseComponent (p : List Char) : Option Nat :=
  match atoi p with
  | none => none
  | some n => if n < 0 then none else some n.toNat

/-- Parse loop of `NormalizeGoVersion` (the `for i := range parts` loop):
every component must parse, in order. -/
def parseComponents : List (List Char) → Option (List Nat)
  | [] => some []
  | p :: rest =>
    match parseComponent p with
    | none => none
    | some n =>
      match parseComponents rest with
      | none => none
      | some ns => some (n :: ns)

/-- Numeric core of `NormalizeGoVersion` (version.go:10-36): trim, reject the
empty string, strip an optional `go` prefix, split on dots, require two or
three components, parse each component, and default a missing patch
component to zero. -/
def normalizeNums (input : List Char) : Option (Nat × Nat × Nat) :=
  let trimmed := trimSpace input
  if trimmed = [] then none
  else
    let parts := splitOnChar '.' (trimPrefixGo trimmed)
    if parts.length < 2 || parts.length > 3 then none
    else
      match parseComponents parts with
      | none => none
      | some [a, b] => some (a, b, 0)
      | some [a, b, c] => some (a, b, c)
      | some _ => none

/-- Model of `NormalizeGoVersion` (version.go:10-36): the parsed components
rendered back as `go<major>.<minor>.<patch>`. -/
def normalizeGoVersion (input : List Char) : Option (List Char) :=
  (normalizeNums input).map (fun t => renderGoVersion t.1 t.2.1 t.2.2)

/-! ## Digit and rendering lemmas -/

theorem isDigitChar_digitChar (d : Nat) : isDigitChar (digitChar d) = true := by
  unfold digitChar
  split_ifs <;> decide

theorem digitVal_digitChar (d : Nat) (h : d < 10) : digitVal (digitChar d) = d := by
  interval_cases d <;> decide

theorem not_space_of_digit (c : Char) (h : isDigitChar c = true) : isSpaceChar c = false := by
  cases hsp : isSpaceChar c with
  | false => rfl
  | true =>
    exfalso
    simp only [isSpaceChar, Bool.or_eq_true, decide_eq_true_eq] at hsp
    have hmem : c = ' ' ∨ c = '\t' ∨ c = '\n' ∨ c = '\r' ∨
        c = Char.ofNat 11 ∨ c = Char.ofNat 12 := by tauto
    rcases hmem with h1 | h1 | h1 | h1 | h1 | h1 <;> subst h1 <;> exact absurd h (by decide)

theorem not_dot_of_digit (c : Char) (h : isDigitChar c = true) : c ≠ '.' := by
  intro hc
  subst hc
  exact absurd h (by decide)

theorem natToCharsAux_all_digits (fuel n : Nat) :
    ∀ c ∈ natToCharsAux fuel n, isDigitChar c = true := by
  induction fuel generalizing n with
  | zero =>
    intro c hc
    simp only [natToCharsAux, List.mem_singleton] at hc
    subst hc
    exact isDigitChar_digitChar n
  | succ fuel ih =>
    intro c hc
    simp only [natToCharsAux] at hc
    split at hc
    · simp only [List.mem_singleton] at hc
      subst hc
      exact isDigitChar_digitChar n
    · rcases List.mem_append.mp hc with h1 | h1
      · exact ih (n / 10) c h1
      · simp only [List.mem_singleton] at h1
        subst h1
        exact isDigitChar_digitChar (n % 10)

theorem natToChars_all_digits (n : Nat) : ∀ c ∈ natToChars n, isDigitChar c = true :=
  natToCharsAux_all_digits n n

theorem natToCharsAux_ne_nil (fuel n : Nat) : natToCharsAux fuel n ≠ [] := by
  cases fuel with
  | zero => simp [natToCharsAux]
  | succ fuel =>
    simp only [natToCharsAux]
    split
    · simp
    · simp

theorem natToChars_ne_nil (n : Nat) : natToChars n ≠ [] := natToCharsAux_ne_nil n n

theorem natToCharsAux_foldl (fuel : Nat) :
    ∀ n acc, n ≤ fuel →
      (natToCharsAux fuel n).foldl (fun acc c => acc * 10 + digitVal c) acc =
        acc * 10 ^ (natToCharsAux fuel n).length + n := by
  induction fuel with
  | zero =>
    intro n acc hn
    have hz : n = 0 := Nat.le_zero.mp hn
    subst hz
    simp [natToCharsAux, digitVal, digitChar]
  | succ fuel ih =>
    intro n acc hn
    by_cases hlt : n < 10
    · simp [natToCharsAux, hlt, digitVal_digitChar n hlt, pow_succ]
    · have hrec : n / 10 ≤ fuel := by omega
      have hmod : n % 10 < 10 := Nat.mod_lt _ (by omega)
      simp only [natToCharsAux, if_neg hlt, List.foldl_append, List.foldl_cons,
        List.foldl_nil, List.length_append, List.length_singleton]
      rw [ih (n / 10) acc hrec, digitVal_digitChar _ hmod, pow_succ]
      have hdm : 10 * (n / 10) + n % 10 = n := Nat.div_add_mod n 10
      ring_nf
      omega

theorem digitsToNat_natToChars (n : Nat) : digitsToNat (natToChars n) = n := by
  unfold digitsToNat natToChars
  rw [natToCharsAux_foldl n n 0 (Nat.le_refl n)]
  simp

theorem parseDigits_natToChars (n : Nat) : parseDigits (natToChars n) = some n := by
  unfold parseDigits
  rw [if_neg (natToChars_ne_nil n)]
  rw [if_pos (List.all_eq_true.mpr (natToChars_all_digits n))]
  rw [digitsToNat_natToChars]

theorem atoi_natToChars (n : Nat) : atoi (natToChars n) = some (n : Int) := by
  obtain ⟨c, rest, hcr⟩ := List.exists_cons_of_ne_nil (natToChars_ne_nil n)
  have hdig : isDigitChar c = true := by
    apply natToChars_all_digits n
    rw [hcr]
    exact List.mem_cons_self _ _
  have hplus : c ≠ '+' := by
    intro hc
    subst hc
    exact absurd hdig (by decide)
  have hminus : c ≠ '-' := by
    intro hc
    subst hc
    exact absurd hdig (by decide)
  rw [hcr]
  simp only [atoi]
  rw [if_neg hplus, if_neg hminus, ← hcr, parseDigits_natToChars]
  rfl

theorem parseComponent_natToChars (n : Nat) : parseComponent (natToChars n) = some n := by
  unfold parseComponent
  rw [atoi_natToChars]
  simp

/-! ## Split and trim lemmas -/

theorem splitOnChar_ne_nil (sep : Char) (l : List Char) : splitOnChar sep l ≠ [] := by
  cases l with
  | nil => simp [splitOnChar]
  | cons c rest =>
    simp only [splitOnChar]
    split
    · simp
    · split <;> simp

theorem splitOnChar_cons_ne (sep c : Char) (rest : List Char) (h : c ≠ sep) :
    splitOnChar sep (c :: rest) =
      match splitOnChar sep rest with
      | [] => [[c]]
      | hd :: t => (c :: hd) :: t := by
  simp [splitOnChar, h]

theorem splitOnChar_no_sep (sep : Char) (xs : List Char) (h : sep ∉ xs) :
    splitOnChar sep xs = [xs] := by
  induction xs with
  | nil => rfl
  | cons c rest ih =>
    have hc : c ≠ sep := fun hc => h (hc ▸ List.mem_cons_self _ _)
    have hrest : sep ∉ rest := fun hr => h (List.mem_cons_of_mem _ hr)
    rw [splitOnChar_cons_ne sep c rest hc, ih hrest]

theorem splitOnChar_append (sep : Char) (xs ys : List Char) (h : sep ∉ xs) :
    splitOnChar sep (xs ++ sep :: ys) = xs :: splitOnChar sep ys := by
  induction xs with
  | nil => simp [splitOnChar]
  | cons c rest ih =>
    have hc : c ≠ sep := fun hc => h (hc ▸ List.mem_cons_self _ _)
    have hrest : sep ∉ rest := fun hr => h (List.mem_cons_of_mem _ hr)
    rw [List.cons_append, splitOnChar_cons_ne sep c _ hc, ih hrest]

theorem dropWhile_eq_self_of_false {p : Char → Bool} {l : List Char}
    (h : ∀ c ∈ l, p c = false) : l.dropWhile p = l := by
  cases l with
  | nil => rfl
  | cons c rest =>
    rw [List.dropWhile_cons]
    rw [h c (List.mem_cons_self _ _)]
    simp

theorem trimSpace_eq_self (l : List Char) (h : ∀ c ∈ l, isSpaceChar c = false) :
    trimSpace l = l := by
  unfold trimSpace
  rw [dropWhile_eq_self_of_false h]
  rw [dropWhile_eq_self_of_false (fun c hc => h c (List.mem_reverse.mp hc))]
  exact List.reverse_reverse l

/-! ## Round trip for the normalizer -/

theorem mem_renderGoVersion {ch : Char} {a b c : Nat} (hch : ch ∈ renderGoVersion a b c) :
    ch = 'g' ∨ ch = 'o' ∨ ch = '.' ∨ isDigitChar ch = true := by
  simp only [renderGoVersion, List.mem_cons, List.mem_append] at hch
  rcases hch with h | hch
  · exact Or.inl h
  rcases hch with h | hch
  · exact Or.inr (Or.inl h)
  rcases hch with h | hch
  · exact Or.inr (Or.inr (Or.inr (natToChars_all_digits a ch h)))
  rcases hch with h | hch
  · exact Or.inr (Or.inr (Or.inl h))
  rcases hch with h | hch
  · exact Or.inr (Or.inr (Or.inr (natToChars_all_digits b ch h)))
  rcases hch with h | h
  · exact Or.inr (Or.inr (Or.inl h))
  · exact Or.inr (Or.inr (Or.inr (natToChars_all_digits c ch h)))

theorem renderGoVersion_no_space (a b c : Nat) :
    ∀ ch ∈ renderGoVersion a b c, isSpaceChar ch = false := by
  intro ch hch
  rcases mem_renderGoVersion hch with h | h | h | h
  · subst h; decide
  · subst h; decide
  · subst h; decide
  · exact not_space_of_digit ch h

theorem dot_not_mem_natToChars (n : Nat) : '.' ∉ natToChars n := by
  intro h
  exact not_dot_of_digit '.' (natToChars_all_digits n '.' h) rfl

theorem normalizeNums_render (a b c : Nat) :
    normalizeNums (renderGoVersion a b c) = some (a, b, c) := by
  unfold normalizeNums
  rw [trimSpace_eq_self _ (renderGoVersion_no_space a b c)]
  have hne : renderGoVersion a b c ≠ [] := by simp [renderGoVersion]
  rw [if_neg hne]
  have hpre : trimPrefixGo (renderGoVersion a b c) =
      natToChars a ++ '.' :: (natToChars b ++ '.' :: natToChars c) := rfl
  rw [hpre]
  rw [splitOnChar_append '.' _ _ (dot_not_mem_natToChars a)]
  rw [splitOnChar_append '.' _ _ (dot_not_mem_natToChars b)]
  rw [splitOnChar_no_sep '.' _ (dot_not_mem_natToChars c)]
  simp [parseComponents, parseComponent_natToChars]

theorem normalizeGoVersion_render (a b c : Nat) :
    normalizeGoVersion (renderGoVersion a b c) = some (renderGoVersion a b c) := by
  unfold normalizeGoVersion
  rw [normalizeNums_render]
  rfl

theorem renderGoVersion_injective {a b c a2 b2 c2 : Nat}
    (h : renderGoVersion a b c = renderGoVersion a2 b2 c2) : a = a2 ∧ b = b2 ∧ c = c2 := by
  have h1 := normalizeNums_render a b c
  rw [h, normalizeNums_render] at h1
  simp only [Option.some.injEq, Prod.mk.injEq] at h1
  exact ⟨h1.1.symm, h1.2.1.symm, h1.2.2.symm⟩

theorem normalizeGoVersion_shape {x y : List Char} (h : normalizeGoVersion x = some y) :
    ∃ a b c, y = renderGoVersion a b c := by
  unfold normalizeGoVersion at h
  cases hn : normalizeNums x with
  | none =>
    rw [hn] at h
    simp at h
  | some t =>
    rw [hn] at h
    simp only [Option.map_some', Option.some.injEq] at h
    exact ⟨t.1, t.2.1, t.2.2, h.symm⟩

theorem normalizeGoVersion_idem {x y : List Char} (h : normalizeGoVersion x = some y) :
    normalizeGoVersion y = some y := by
  obtain ⟨a, b, c, hy⟩ := normalizeGoVersion_shape h
  subst hy
  exact normalizeGoVersion_render a b c

theorem parseComponents_none {parts : List (List Char)} {p : List Char}
    (hmem : p ∈ parts) (hp : parseComponent p = none) : parseComponents parts = none := by
  induction parts with
  | nil => exact absurd hmem (List.not_mem_nil p)
  | cons q rest ih =>
    rcases List.mem_cons.mp hmem with h | h
    · subst h
      simp [parseComponents, hp]
    · unfold parseComponents
      rw [ih h]
      cases parseComponent q <;> rfl

theorem normalizeGoVersion_two_components (a b : Nat) :
    normalizeGoVersion ('g' :: 'o' :: (natToChars a ++ '.' :: natToChars b)) =
      some (renderGoVersion a b 0) := by
  unfold normalizeGoVersion normalizeNums
  have hns : ∀ ch ∈ ('g' :: 'o' :: (natToChars a ++ '.' :: natToChars b)),
      isSpaceChar ch = false := by
    intro ch hch
    simp only [List.mem_cons, List.mem_append] at hch
    rcases hch with h | hch
    · subst h; decide
    rcases hch with h | hch
    · subst h; decide
    rcases hch with h | hch
    · exact not_space_of_digit ch (natToChars_all_digits a ch h)
    rcases hch with h | h
    · subst h; decide
    · exact not_space_of_digit ch (natToChars_all_digits b ch h)
  rw [trimSpace_eq_self _ hns]
  rw [if_neg (by simp)]
  have hpre : trimPrefixGo ('g' :: 'o' :: (natToChars a ++ '.' :: natToChars b)) =
      natToChars a ++ '.' :: natToChars b := rfl
  rw [hpre]
  rw [splitOnChar_append '.' _ _ (dot_not_mem_natToChars a)]
  rw [splitOnChar_no_sep '.' _ (dot_not_mem_natToChars b)]
  simp [parseComponents, parseComponent_natToChars]

theorem normalizeGoVersion_rejects {x p : List Char}
    (hmem : p ∈ splitOnChar '.' (trimPrefixGo (trimSpace x)))
    (hp : parseComponent p = none) : normalizeGoVersion x = none := by
  unfold normalizeGoVersion normalizeNums
  by_cases hemp : trimSpace x = []
  · rw [if_pos hemp]
    rfl
  rw [if_neg hemp]
  by_cases hlen : (splitOnChar '.' (trimPrefixGo (trimSpace x))).length < 2 ∨
      (splitOnChar '.' (trimPrefixGo (trimSpace x))).length > 3
  · rw [if_pos (by simpa [Bool.or_eq_true, decide_eq_true_eq] using hlen)]
    rfl
  · rw [if_neg (by simpa [Bool.or_eq_true, decide_eq_true_eq] using hlen)]
    rw [parseComponents_none hmem hp]
    rfl

/-- C9: Normalize accepts an input of 2 or 3 dot-separated non-negative
integer components with an optional "go" prefix, defaults a missing third
component to 0 (so Normalize("1.25") = "go1.25.0"), rejects every input
containing a non-numeric component (such as "go1.25rc1" or "latest"), and is
idempotent on valid inputs. -/
theorem C9_normalize_contract :
    normalizeGoVersion ("1.25".toList) = some ("go1.25.0".toList) ∧
    normalizeGoVersion ("go1.25rc1".toList) = none ∧
    normalizeGoVersion ("latest".toList) = none ∧
    (∀ a b : Nat,
      normalizeGoVersion ('g' :: 'o' :: (natToChars a ++ '.' :: natToChars b)) =
        some (renderGoVersion a b 0)) ∧
    (∀ a b c : Nat,
      normalizeGoVersion (renderGoVersion a b c) = some (renderGoVersion a b c)) ∧
    (∀ x y : List Char, normalizeGoVersion x = some y → normalizeGoVersion y = some y) ∧
    (∀ x p : List Char,
      p ∈ splitOnChar '.' (trimPrefixGo (trimSpace x)) → parseComponent p = none →
        normalizeGoVersion x = none) := by
  refine ⟨by decide, by decide, by decide, normalizeGoVersion_two_components,
    normalizeGoVersion_render, fun x y h => normalizeGoVersion_idem h,
    fun x p hmem hp => normalizeGoVersion_rejects hmem hp⟩

/-- Witness for C9: the idempotence clause applied to the concrete valid
input "1.24.2", whose normal form is "go1.24.2". -/
theorem C9_normalize_contract_witness :
    normalizeGoVersion ("go1.24.2".toList) = some ("go1.24.2".toList) :=
  C9_normalize_contract.2.2.2.2.2.1 ("1.24.2".toList) ("go1.24.2".toList) (by decide)

/-! ## Model of internal/switcher/state.go: scope resolution

Directories are modelled as lists of path components with the deepest
component first, so the parent of `comp :: rest` is `rest` and `[]` is the
filesystem root (where `filepath.Dir` reaches its fixed point).  The pin-file
lookup `fs.pin d` models `os.ReadFile(filepath.Join(d, ".switcher-version"))`:
`none` is a not-exist error and `some raw` is the file's content.  Other I/O
errors and the `filepath.Abs`/`os.Stat` preamble (the claims quantify over
working directories, which are absolute directory paths here) are not
modelled, and the config document is passed in already decoded, as
`ReadConfig` yields it. -/

abbrev Dir : Type := List String

structure WalkFS where
  pin : Dir → Option (List Char)

inductive ResolveError where
  | invalidLocal (dir : Dir)
  | invalidGlobal
  | noActiveVersion
deriving DecidableEq

inductive Scope where
  | scopeLocal
  | scopeGlobal
deriving DecidableEq

inductive VersionSource where
  | pinFile (dir : Dir)
  | configFile
deriving DecidableEq

structure ActiveVersion where
  version : List Char
  scope : Scope
  source : VersionSource
deriving DecidableEq

/-- Model of FindLocalVersion (state.go:43-77): walk from the starting
directory through its ancestors to the root; the first directory holding a
pin file ends the walk — its content is trimmed and normalized, and a
normalization failure is an error naming that pin file, not a skip. -/
def findLocalVersion (fs : WalkFS) : Dir → Except ResolveError (Option (List Char × Dir))
  | [] =>
    match fs.pin [] with
    | some raw =>
      match normalizeGoVersion (trimSpace raw) with
      | none => .error (.invalidLocal [])
      | some v => .ok (some (v, []))
    | none => .ok none
  | comp :: parent =>
    match fs.pin (comp :: parent) with
    | some raw =>
      match normalizeGoVersion (trimSpace raw) with
      | none => .error (.invalidLocal (comp :: parent))
      | some v => .ok (some (v, comp :: parent))
    | none => findLocalVersion fs parent

/-- Model of ResolveActiveVersion (state.go:79-103): local pin first; then
the global version from the config, where an empty global version is the
distinguished ErrNoActiveVersion. -/
def resolveActiveVersion (fs : WalkFS) (globalV : List Char) (cwd : Dir) :
    Except ResolveError ActiveVersion :=
  match findLocalVersion fs cwd with
  | .error e => .error e
  | .ok (some (v, src)) => .ok ⟨v, .scopeLocal, .pinFile src⟩
  | .ok none =>
    if globalV = [] then .error .noActiveVersion
    else
      match normalizeGoVersion globalV with
      | none => .error .invalidGlobal
      | some v => .ok ⟨v, .scopeGlobal, .configFile⟩

/-- Specification-side description of the walk: the ancestor chain of a
directory is its list of suffixes (ending at the root), and the first
directory on it holding a pin file is the one the walk should report. -/
def firstPinDir (fs : WalkFS) (d : Dir) : Option Dir :=
  (List.tails d).find? (fun a => (fs.pin a).isSome)

theorem firstPinDir_nil (fs : WalkFS) :
    firstPinDir fs [] = if (fs.pin []).isSome then some [] else none := by
  unfold firstPinDir
  cases hs : (fs.pin []).isSome <;> simp [List.find?, hs]

theorem firstPinDir_cons (fs : WalkFS) (comp : String) (parent : Dir) :
    firstPinDir fs (comp :: parent) =
      if (fs.pin (comp :: parent)).isSome then some (comp :: parent)
      else firstPinDir fs parent := by
  unfold firstPinDir
  rw [show List.tails (comp :: parent) = (comp :: parent) :: List.tails parent from rfl]
  cases hs : (fs.pin (comp :: parent)).isSome <;> simp [List.find?, hs]

theorem findLocalVersion_of_no_pin {fs : WalkFS} {d : Dir}
    (h : firstPinDir fs d = none) : findLocalVersion fs d = .ok none := by
  induction d with
  | nil =>
    rw [firstPinDir_nil] at h
    unfold findLocalVersion
    cases hp : fs.pin [] with
    | some raw => rw [hp] at h; simp at h
    | none => rfl
  | cons comp parent ih =>
    rw [firstPinDir_cons] at h
    unfold findLocalVersion
    cases hp : fs.pin (comp :: parent) with
    | some raw => rw [hp] at h; simp at h
    | none =>
      rw [hp] at h
      simp only [Option.isSome_none, Bool.false_eq_true, if_false] at h
      exact ih h

theorem findLocalVersion_of_first_pin {fs : WalkFS} {d a : Dir} {raw : List Char}
    (h : firstPinDir fs d = some a) (hp : fs.pin a = some raw) :
    findLocalVersion fs d =
      (match normalizeGoVersion (trimSpace raw) with
       | none => .error (.invalidLocal a)
       | some v => .ok (some (v, a))) := by
  induction d with
  | nil =>
    rw [firstPinDir_nil] at h
    by_cases hs : (fs.pin []).isSome
    · rw [if_pos hs] at h
      have ha : a = [] := by
        cases h
        rfl
      subst ha
      unfold findLocalVersion
      rw [hp]
    · rw [if_neg hs] at h
      exact absurd h (by simp)
  | cons comp parent ih =>
    rw [firstPinDir_cons] at h
    by_cases hs : (fs.pin (comp :: parent)).isSome
    · rw [if_pos hs] at h
      have ha : a = comp :: parent := by
        cases h
        rfl
      subst ha
      unfold findLocalVersion
      rw [hp]
    · rw [if_neg hs] at h
      have hnone : fs.pin (comp :: parent) = none := by
        cases hpp : fs.pin (comp :: parent) with
        | none => rfl
        | some r => rw [hpp] at hs; simp at hs
      unfold findLocalVersion
      rw [hnone]
      exact ih h

/-- C3: ResolveActiveVersion returns the version of the first pin file found
walking from the working directory up to the root (scope local, source that
pin file); with no pin file on the walk it falls back to the config's global
version (scope global); and with no global version either it fails with the
distinguished no-active-version sentinel. -/
theorem C3_resolve_precedence (fs : WalkFS) (globalV : List Char) (d : Dir) :
    (∀ (a : Dir) (raw v : List Char), firstPinDir fs d = some a → fs.pin a = some raw →
      normalizeGoVersion (trimSpace raw) = some v →
      resolveActiveVersion fs globalV d = .ok ⟨v, .scopeLocal, .pinFile a⟩) ∧
    (firstPinDir fs d = none → globalV = [] →
      resolveActiveVersion fs globalV d = .error .noActiveVersion) ∧
    (∀ g : List Char, firstPinDir fs d = none → globalV ≠ [] →
      normalizeGoVersion globalV = some g →
      resolveActiveVersion fs globalV d = .ok ⟨g, .scopeGlobal, .configFile⟩) := by
  refine ⟨?_, ?_, ?_⟩
  · intro a raw v ha hp hv
    unfold resolveActiveVersion
    rw [findLocalVersion_of_first_pin ha hp, hv]
  · intro hnone hempty
    unfold resolveActiveVersion
    rw [findLocalVersion_of_no_pin hnone]
    simp [hempty]
  · intro g hnone hne hg
    unfold resolveActiveVersion
    rw [findLocalVersion_of_no_pin hnone]
    rw [if_neg hne, hg]

/-- Witness for C3: a pin file `go1.23.1` in the parent directory wins over a
global version `go1.24.0` when resolving from the child directory. -/
theorem C3_resolve_precedence_witness :
    resolveActiveVersion
      ⟨fun d => if d = ["proj"] then some ("go1.23.1".toList) else none⟩
      ("go1.24.0".toList) ["sub", "proj"] =
      .ok ⟨"go1.23.1".toList, .scopeLocal, .pinFile ["proj"]⟩ :=
  (C3_resolve_precedence
      ⟨fun d => if d = ["proj"] then some ("go1.23.1".toList) else none⟩
      ("go1.24.0".toList) ["sub", "proj"]).1
    ["proj"] ("go1.23.1".toList) ("go1.23.1".toList)
    (by decide) (by decide) (by decide)

/-- C10: when the nearest ancestor pin file exists but its content fails
normalization, resolution neither skips the file nor falls back: both
FindLocalVersion and ResolveActiveVersion fail with an error identifying
that pin file. -/
theorem C10_invalid_pin_error {fs : WalkFS} {d a : Dir} {raw : List Char}
    (globalV : List Char)
    (ha : firstPinDir fs d = some a) (hp : fs.pin a = some raw)
    (hbad : normalizeGoVersion (trimSpace raw) = none) :
    findLocalVersion fs d = .error (.invalidLocal a) ∧
    resolveActiveVersion fs globalV d = .error (.invalidLocal a) := by
  have hfind : findLocalVersion fs d = .error (.invalidLocal a) := by
    rw [findLocalVersion_of_first_pin ha hp, hbad]
  refine ⟨hfind, ?_⟩
  unfold resolveActiveVersion
  rw [hfind]

/-- Witness for C10: a pin file containing "latest" in the current directory
makes resolution fail with an error naming that directory's pin file, even
though a valid global version is configured. -/
theorem C10_invalid_pin_error_witness :
    resolveActiveVersion ⟨fun d => if d = ["proj"] then some ("latest".toList) else none⟩
      ("go1.24.0".toList) ["proj"] = .error (.invalidLocal ["proj"]) :=
  (@C10_invalid_pin_error
      ⟨fun d => if d = ["proj"] then some ("latest".toList) else none⟩
      ["proj"] ["proj"] ("latest".toList) ("go1.24.0".toList)
      (by decide) (by decide) (by decide)).2

/-! ## Model of internal/switcher/config.go: the atomic file-write helper

`writeFileAtomically` (config.go:62-98) is modelled as a straight-line
program over the destination file and the temporary file it creates, with a
fault oracle deciding which of its six I/O steps fails first.  File contents
are abstract byte lists; `none` means the file is absent.  `os.Rename` is
atomic: it either fully replaces the destination or leaves it untouched. -/

inductive WriteStep where
  | mkdirAll
  | createTemp
  | writeTemp
  | chmodTemp
  | closeTemp
  | renameTemp
deriving DecidableEq

structure FileBox where
  dest : Option (List Nat)
  temp : Option (List Nat)
deriving DecidableEq

/-- Model of writeFileAtomically (config.go:62-98): create the parent
directory, create a temp file next to the destination, write, chmod, close,
and rename over the destination; every failure branch reports the failing
step and runs the cleanup that removes the temp file. -/
def writeFileAtomically (fail : WriteStep → Bool) (content : List Nat) (s : FileBox) :
    Except WriteStep Unit × FileBox :=
  if fail .mkdirAll then (.error .mkdirAll, s)
  else if fail .createTemp then (.error .createTemp, s)
  else
    -- the temp file now exists; cleanup removes it on every later failure
    if fail .writeTemp then (.error .writeTemp, { s with temp := none })
    else if fail .chmodTemp then (.error .chmodTemp, { s with temp := none })
    else if fail .closeTemp then (.error .closeTemp, { s with temp := none })
    else if fail .renameTemp then (.error .renameTemp, { s with temp := none })
    else (.ok (), { dest := some content, temp := none })

/-- C5: every failure inside the atomic write helper is reported, removes the
temporary file, and leaves the destination holding exactly the bytes it held
before the call; on success the destination holds the new content. -/
theorem C5_atomic_write (fail : WriteStep → Bool) (content : List Nat) (s : FileBox)
    (hstart : s.temp = none) :
    (∀ e : WriteStep, (writeFileAtomically fail content s).1 = .error e →
      ((writeFileAtomically fail content s).2.dest = s.dest ∧
       (writeFileAtomically fail content s).2.temp = none)) ∧
    ((writeFileAtomically fail content s).1 = .ok () →
      (writeFileAtomically fail content s).2.dest = some content) := by
  unfold writeFileAtomically
  split_ifs <;> simp_all

/-- Witness for C5: a rename failure against a destination holding bytes
`[1, 2]` reports the error and leaves those bytes in place with no temp
file. -/
theorem C5_atomic_write_witness :
    (writeFileAtomically (fun st => st = .renameTemp) [9, 9] ⟨some [1, 2], none⟩).1 =
        .error .renameTemp ∧
    (writeFileAtomically (fun st => st = .renameTemp) [9, 9] ⟨some [1, 2], none⟩).2.dest =
        some [1, 2] ∧
    (writeFileAtomically (fun st => st = .renameTemp) [9, 9] ⟨some [1, 2], none⟩).2.temp =
        none := by
  have h := (C5_atomic_write (fun st => st = .renameTemp) [9, 9] ⟨some [1, 2], none⟩
    (by rfl)).1 .renameTemp (by rfl)
  exact ⟨by rfl, h.1, h.2⟩

/-! ## Model of the archive cache (part_005:65-159)

File contents are abstract ids (`Nat`) and the SHA-256 digest is an abstract
function from contents to hex strings.  `verifySHA256` never fails to read
here because it is only invoked on a cache file that exists, and `os.Remove`
of that existing file is modelled as succeeding. -/

/-- ASCII lower-casing used by the `strings.ToLower` in verifySHA256. -/
def toLowerChar (c : Char) : Char :=
  if 'A' ≤ c && c ≤ 'Z' then Char.ofNat (c.toNat + 32) else c

/-- Model of verifySHA256 (part_005:142-159): stream hash of the file
compared against the trimmed, lower-cased expected hex digest. -/
def verifySHA256 (hash : Nat → List Char) (content : Nat) (expectedHex : List Char) : Bool :=
  hash content = (trimSpace expectedHex).map toLowerChar

structure CacheOutcome where
  res : Except String Unit
  cacheAfter : Option Nat
  downloaded : Bool

/-- Model of ensureArchiveInCache (part_005:65-85): a present cache file is
used as-is when no checksum is expected; with a checksum it is verified, a
match short-circuits the download, and a mismatch removes the file before
downloading.  `download` is the result of downloadToFile (part_005:87-140),
which promotes a fully-downloaded temp file onto the cache path only on
success and leaves the path untouched on failure. -/
def ensureArchiveInCache (hash : Nat → List Char) (sha256 : List Char)
    (cache : Option Nat) (download : Option Nat) : CacheOutcome :=
  match cache with
  | some c =>
    if trimSpace sha256 = [] then ⟨.ok (), some c, false⟩
    else if verifySHA256 hash c sha256 then ⟨.ok (), some c, false⟩
    else
      -- the invalid cached file is removed, then the archive is downloaded
      match download with
      | some d => ⟨.ok (), some d, true⟩
      | none => ⟨.error "download failed", none, true⟩
  | none =>
    match download with
    | some d => ⟨.ok (), some d, true⟩
    | none => ⟨.error "download failed", none, true⟩

/-- C6: with a non-empty checksum and a file already in the cache, a checksum
match uses the cached file with no download, while a mismatch removes the
cached file and downloads anew — the invalid cached content is never what the
call returns with. -/
theorem C6_cache_verification (hash : Nat → List Char) (sha256 : List Char)
    (c : Nat) (download : Option Nat) (hsha : trimSpace sha256 ≠ []) :
    (verifySHA256 hash c sha256 = true →
      ensureArchiveInCache hash sha256 (some c) download = ⟨.ok (), some c, false⟩) ∧
    (verifySHA256 hash c sha256 = false →
      (ensureArchiveInCache hash sha256 (some c) download).downloaded = true ∧
      (ensureArchiveInCache hash sha256 (some c) download).cacheAfter = download ∧
      ((ensureArchiveInCache hash sha256 (some c) download).res = .ok () ↔
        download.isSome)) := by
  constructor
  · intro hv
    simp only [ensureArchiveInCache]
    rw [if_neg hsha, if_pos hv]
  · intro hv
    simp only [ensureArchiveInCache]
    rw [if_neg hsha, if_neg (by simp [hv])]
    cases download <;> simp

/-- Witness for C6: with content id 7 cached against expected digest "AB"
(the hash mapping everything to "ff"), the mismatch forces a removal and a
re-download, and the downloaded content 8 ends up in the cache. -/
theorem C6_cache_verification_witness :
    (ensureArchiveInCache (fun _ => ['f', 'f']) ['A', 'B'] (some 7) (some 8)).downloaded =
        true ∧
    (ensureArchiveInCache (fun _ => ['f', 'f']) ['A', 'B'] (some 7) (some 8)).cacheAfter =
        some 8 :=
  ⟨((C6_cache_verification (fun _ => ['f', 'f']) ['A', 'B'] 7 (some 8)
      (by decide)).2 (by decide)).1,
   ((C6_cache_verification (fun _ => ['f', 'f']) ['A', 'B'] 7 (some 8)
      (by decide)).2 (by decide)).2.1⟩

/-! ## Model of the install workflow (service.go:60-89 with part_005:24-63)

`Service.InstallWithProgress` normalizes the version, fetches the remote
release metadata, selects the archive for the platform, and only then
delegates to the installer, whose first action is the already-installed
check on `bin/go` under the toolchain directory.
`InstallGoArchiveWithOptions` itself is not under src/ (only its caller is);
it is modelled from the spec as the cited `InstallGoArchive` (part_005:24-63)
pipeline with progress reporting, which carries no network behaviour of its
own.  The model returns the result together with the list of network
operations performed, in order. -/

inductive NetOp where
  | metadataFetch
  | archiveDownload
deriving DecidableEq

structure InstallEnv where
  fetchOK : Bool
  archiveFound : Bool
  installed : Bool
  cachedValid : Bool
  installOK : Bool
deriving DecidableEq

inductive InstallErr where
  | badVersion
  | fetchFailed
  | notAvailable
  | installFailed
deriving DecidableEq

/-- Model of InstallWithProgress (service.go:60-89): normalize, fetch release
metadata, select the archive, then install, where the installed short-circuit
(part_005:35-37) happens inside the install step; the archive download is
skipped when a valid cached copy exists (part_005:65-85). -/
def installWithProgress (env : InstallEnv) (version : List Char) :
    Except InstallErr (List Char) × List NetOp :=
  match normalizeGoVersion version with
  | none => (.error .badVersion, [])
  | some normalized =>
    if !env.fetchOK then (.error .fetchFailed, [.metadataFetch])
    else if !env.archiveFound then (.error .notAvailable, [.metadataFetch])
    else if env.installed then (.ok normalized, [.metadataFetch])
    else
      let ops := if env.cachedValid then [NetOp.metadataFetch]
                 else [NetOp.metadataFetch, NetOp.archiveDownload]
      if env.installOK then (.ok normalized, ops)
      else (.error .installFailed, ops)

/-- Counterexample for C4: installing an already-installed version does
perform network access — the release metadata fetch happens before the
already-installed short-circuit — and with the metadata fetch failing, the
install of an already-installed version even fails instead of
short-circuiting. -/
theorem C4_counterexample :
    ((installWithProgress ⟨true, true, true, true, true⟩ ("go1.24.2".toList)).1 =
        .ok ("go1.24.2".toList) ∧
      (installWithProgress ⟨true, true, true, true, true⟩ ("go1.24.2".toList)).2 =
        [.metadataFetch]) ∧
    (installWithProgress ⟨false, true, true, true, true⟩ ("go1.24.2".toList)).1 =
      .error .fetchFailed := by
  refine ⟨⟨?_, ?_⟩, ?_⟩ <;> rfl

/-- C4 (amended): for an already-installed version whose metadata fetch and
archive selection succeed, the install workflow returns successfully and the
short-circuit happens before any archive download — the only network access
is the release metadata fetch. -/
theorem C4_installed_no_download (env : InstallEnv) (version normalized : List Char)
    (hnorm : normalizeGoVersion version = some normalized)
    (hfetch : env.fetchOK = true) (hfound : env.archiveFound = true)
    (hinst : env.installed = true) :
    (installWithProgress env version).1 = .ok normalized ∧
    (installWithProgress env version).2 = [.metadataFetch] := by
  unfold installWithProgress
  rw [hnorm]
  simp [hfetch, hfound, hinst]

/-- Witness for C4 (amended): the concrete already-installed environment. -/
theorem C4_installed_no_download_witness :
    (installWithProgress ⟨true, true, true, false, false⟩ ("1.24".toList)).1 =
        .ok ("go1.24.0".toList) ∧
    (installWithProgress ⟨true, true, true, false, false⟩ ("1.24".toList)).2 =
        [.metadataFetch] :=
  C4_installed_no_download ⟨true, true, true, false, false⟩ ("1.24".toList)
    ("go1.24.0".toList) (by decide) rfl rfl rfl

/-! ## Model of the tar extractor (part_005:161-283)

Tar entry names are modelled pre-split on the path separator: `isAbs` records
whether the raw name begins with a separator and `segs` are its raw segments
(which, coming from a split on the separator, never contain one; they may be
empty, `"."` or `".."`).  `cleanSegs` is the lexical algorithm of Go's
`path/filepath.Clean` at the segment level: drop empty and `"."` segments,
resolve `".."` against the preceding segment, keep leading `".."` for
relative paths and drop it at the root for absolute ones. -/

def cleanSegsAux (isAbs : Bool) : List String → List String → List String
  | stack, [] => stack.reverse
  | stack, seg :: rest =>
    if seg = "" || seg = "." then cleanSegsAux isAbs stack rest
    else if seg = ".." then
      match stack with
      | [] => if isAbs then cleanSegsAux isAbs [] rest else cleanSegsAux isAbs [".."] rest
      | top :: stack2 =>
        if top = ".." then cleanSegsAux isAbs (".." :: top :: stack2) rest
        else cleanSegsAux isAbs stack2 rest
    else cleanSegsAux isAbs (seg :: stack) rest

def cleanSegs (isAbs : Bool) (segs : List String) : List String :=
  cleanSegsAux isAbs [] segs

/-- Invariant of the clean stack: parent-dot segments form a suffix block
(they sit nearest the root), and no segment is empty or a lone dot. -/
def StackOK (stack : List String) : Prop :=
  (∃ front dots, stack = front ++ dots ∧ ".." ∉ front ∧ (∀ s ∈ dots, s = "..")) ∧
  (∀ s ∈ stack, s ≠ "" ∧ s ≠ ".")

theorem stackOK_nil : StackOK [] :=
  ⟨⟨[], [], rfl, List.not_mem_nil _, fun s hs => absurd hs (List.not_mem_nil s)⟩,
   fun s hs => absurd hs (List.not_mem_nil s)⟩

theorem cleanSegsAux_structure (isAbs : Bool) :
    ∀ (l stack : List String), StackOK stack →
      (∃ dots rest, cleanSegsAux isAbs stack l = dots ++ rest ∧
        (∀ s ∈ dots, s = "..") ∧ ".." ∉ rest) ∧
      (∀ s ∈ cleanSegsAux isAbs stack l, s ≠ "" ∧ s ≠ ".") := by
  intro l
  induction l with
  | nil =>
    intro stack hok
    obtain ⟨⟨front, dots, hsplit, hfront, hdots⟩, hgood⟩ := hok
    constructor
    · refine ⟨dots.reverse, front.reverse, ?_, ?_, ?_⟩
      · simp only [cleanSegsAux, hsplit, List.reverse_append]
      · intro s hs
        exact hdots s (List.mem_reverse.mp hs)
      · intro hmem
        exact hfront (List.mem_reverse.mp hmem)
    · intro s hs
      exact hgood s (List.mem_reverse.mp (by simpa [cleanSegsAux] using hs))
  | cons seg rest ih =>
    intro stack hok
    obtain ⟨⟨front, dots, hsplit, hfront, hdots⟩, hgood⟩ := hok
    by_cases hskip : seg = "" ∨ seg = "."
    · have hcond : (seg = "" || seg = ".") = true := by
        rcases hskip with h | h <;> simp [h]
      have hred : cleanSegsAux isAbs stack (seg :: rest) = cleanSegsAux isAbs stack rest := by
        simp [cleanSegsAux, hcond]
      rw [hred]
      exact ih stack ⟨⟨front, dots, hsplit, hfront, hdots⟩, hgood⟩
    · have hcond : (seg = "" || seg = ".") = false := by
        simp only [Bool.or_eq_false_iff, decide_eq_false_iff_not]
        exact ⟨fun h => hskip (Or.inl h), fun h => hskip (Or.inr h)⟩
      by_cases hdd : seg = ".."
      · subst hdd
        cases stack with
        | nil =>
          have hred : cleanSegsAux isAbs [] (".." :: rest) =
              if isAbs then cleanSegsAux isAbs [] rest
              else cleanSegsAux isAbs [".."] rest := by
            simp [cleanSegsAux]
          rw [hred]
          cases isAbs with
          | true =>
            simp only [if_true]
            exact ih [] stackOK_nil
          | false =>
            simp only [Bool.false_eq_true, if_false]
            refine ih [".."] ⟨⟨[], [".."], rfl, List.not_mem_nil _, ?_⟩, ?_⟩
            · intro s hs
              simpa using hs
            · intro s hs
              simp only [List.mem_singleton] at hs
              subst hs
              exact ⟨by decide, by decide⟩
        | cons top stack2 =>
          by_cases htop : top = ".."
          · have hred : cleanSegsAux isAbs (top :: stack2) (".." :: rest) =
                cleanSegsAux isAbs (".." :: top :: stack2) rest := by
              simp [cleanSegsAux, htop]
            rw [hred]
            have hfront0 : front = [] := by
              cases front with
              | nil => rfl
              | cons f0 fr =>
                exfalso
                apply hfront
                rw [List.cons_append] at hsplit
                injection hsplit with h3 h4
                have hf : f0 = ".." := h3.symm.trans htop
                rw [hf]
                exact List.mem_cons_self _ _
            have hstackdots : top :: stack2 = dots := by
              rw [hfront0] at hsplit
              simpa using hsplit
            refine ih (".." :: top :: stack2)
              ⟨⟨[], ".." :: top :: stack2, rfl, List.not_mem_nil _, ?_⟩, ?_⟩
            · intro s hs
              rcases List.mem_cons.mp hs with h | h
              · exact h
              · exact hdots s (hstackdots ▸ h)
            · intro s hs
              rcases List.mem_cons.mp hs with h | h
              · subst h
                exact ⟨by decide, by decide⟩
              · exact hgood s h
          · have hred : cleanSegsAux isAbs (top :: stack2) (".." :: rest) =
                cleanSegsAux isAbs stack2 rest := by
              simp [cleanSegsAux, htop]
            rw [hred]
            cases front with
            | nil =>
              exfalso
              apply htop
              have hstackdots : top :: stack2 = dots := by simpa using hsplit
              exact hdots top (hstackdots ▸ List.mem_cons_self _ _)
            | cons f0 fr =>
              rw [List.cons_append] at hsplit
              injection hsplit with h3 h4
              refine ih stack2
                ⟨⟨fr, dots, h4, fun hm => hfront (List.mem_cons_of_mem _ hm), hdots⟩, ?_⟩
              intro s hs
              exact hgood s (List.mem_cons_of_mem top hs)
      · have hred : cleanSegsAux isAbs stack (seg :: rest) =
            cleanSegsAux isAbs (seg :: stack) rest := by
          simp [cleanSegsAux, hcond, hdd]
        rw [hred]
        refine ih (seg :: stack) ⟨⟨seg :: front, dots, ?_, ?_, hdots⟩, ?_⟩
        · rw [hsplit, List.cons_append]
        · intro hm
          rcases List.mem_cons.mp hm with h | h
          · exact hdd h.symm
          · exact hfront h
        · intro s hs
          rcases List.mem_cons.mp hs with h | h
          · subst h
            exact ⟨fun he => hskip (Or.inl he), fun he => hskip (Or.inr he)⟩
          · exact hgood s h

theorem cleanSegs_structure (isAbs : Bool) (segs : List String) :
    (∃ dots rest, cleanSegs isAbs segs = dots ++ rest ∧
      (∀ s ∈ dots, s = "..") ∧ ".." ∉ rest) ∧
    (∀ s ∈ cleanSegs isAbs segs, s ≠ "" ∧ s ≠ ".") :=
  cleanSegsAux_structure isAbs segs [] stackOK_nil

theorem cleanSegsAux_of_clean (isAbs : Bool) :
    ∀ (l stack : List String), (∀ s ∈ l, s ≠ "" ∧ s ≠ "." ∧ s ≠ "..") →
      cleanSegsAux isAbs stack l = stack.reverse ++ l := by
  intro l
  induction l with
  | nil =>
    intro stack _
    simp [cleanSegsAux]
  | cons seg rest ih =>
    intro stack hgood
    obtain ⟨hne, hnd, hndd⟩ := hgood seg (List.mem_cons_self _ _)
    have hcond : (seg = "" || seg = ".") = false := by
      simp only [Bool.or_eq_false_iff, decide_eq_false_iff_not]
      exact ⟨hne, hnd⟩
    have hred : cleanSegsAux isAbs stack (seg :: rest) =
        cleanSegsAux isAbs (seg :: stack) rest := by
      simp [cleanSegsAux, hcond, hndd]
    rw [hred, ih (seg :: stack) (fun s hs => hgood s (List.mem_cons_of_mem _ hs))]
    simp

theorem cleanSegs_of_clean (isAbs : Bool) (l : List String)
    (h : ∀ s ∈ l, s ≠ "" ∧ s ≠ "." ∧ s ≠ "..") : cleanSegs isAbs l = l := by
  unfold cleanSegs
  rw [cleanSegsAux_of_clean isAbs l [] h]
  rfl

structure EntryName where
  isAbs : Bool
  segs : List String
deriving DecidableEq

inductive EntryKind where
  | dir
  | reg (content : Nat)
  | symlink (linkname : String)
  | other
deriving DecidableEq

structure TarEntry where
  name : EntryName
  kind : EntryKind
deriving DecidableEq

/-- Archive items as the tar reader yields them: `readErr` is a failing
`tarReader.Next()` call. -/
inductive TarItem where
  | entry (e : TarEntry)
  | readErr
deriving DecidableEq

/-- Model of stripGoRootPrefix (part_005:257-270): clean the entry name and
require its first part to be `go`.  For an absolute name `filepath.Clean`
keeps the leading separator, so the first split part is empty and never
equals `go`; for a relative name cleaning to nothing, Clean yields `"."`,
which never equals `go` either. -/
def stripGoRootPrefix (name : EntryName) : Except String (List String) :=
  if name.isAbs then .error "unexpected archive root"
  else
    match cleanSegs false name.segs with
    | [] => .error "unexpected archive root"
    | first :: rest => if first = "go" then .ok rest else .error "unexpected archive root"

/-- Model of ensureSafePath (part_005:272-283) on cleaned segment lists: a
target equal to the base is accepted, otherwise the base followed by the
separator must be a prefix of the target, which over separator-free segments
is exactly segment-list prefixing. -/
def ensureSafePath (base target : List String) : Bool :=
  if target = base then true else base.isPrefixOf target

/-- Specification-side escape predicate for C2: an entry path escapes the
extraction root when it is absolute or when its cleaned form still begins
with a parent-directory component. -/
def escapesRoot (name : EntryName) : Bool :=
  name.isAbs ||
    (match cleanSegs false name.segs with
     | s :: _ => s = ".."
     | [] => false)

theorem stripGoRootPrefix_ok_clean {name : EntryName} {rel : List String}
    (h : stripGoRootPrefix name = .ok rel) :
    ∀ s ∈ rel, s ≠ "" ∧ s ≠ "." ∧ s ≠ ".." := by
  unfold stripGoRootPrefix at h
  by_cases habs : name.isAbs
  · rw [if_pos habs] at h
    exact absurd h (by simp)
  rw [if_neg habs] at h
  obtain ⟨⟨dots, tail, hsplit, hdots, hnodot⟩, hgood⟩ := cleanSegs_structure false name.segs
  cases hc : cleanSegs false name.segs with
  | nil =>
    rw [hc] at h
    exact absurd h (by simp)
  | cons first rest =>
    rw [hc] at h
    have h2 : (if first = "go" then (Except.ok rest : Except String (List String))
        else .error "unexpected archive root") = .ok rel := h
    by_cases hgo : first = "go"
    · rw [if_pos hgo] at h2
      have hrel : rel = rest := by
        injection h2 with h3
        exact h3.symm
      subst hrel
      have hdnil : dots = [] := by
        cases dots with
        | nil => rfl
        | cons d0 ds =>
          exfalso
          rw [hc] at hsplit
          rw [List.cons_append] at hsplit
          injection hsplit with h3 h4
          have : first = ".." := h3.trans (hdots d0 (List.mem_cons_self _ _))
          rw [hgo] at this
          exact absurd this (by decide)
      intro s hs
      have hmem : s ∈ cleanSegs false name.segs := by
        rw [hc]
        exact List.mem_cons_of_mem _ hs
      have hnd : s ≠ ".." := by
        intro hsd
        apply hnodot
        rw [hdnil] at hsplit
        simp only [List.nil_append] at hsplit
        rw [hsplit] at hmem
        exact hsd ▸ hmem
      obtain ⟨hg1, hg2⟩ := hgood s hmem
      exact ⟨hg1, hg2, hnd⟩
    · rw [if_neg hgo] at h2
      exact absurd h2 (by simp)

theorem escapesRoot_strip_error {name : EntryName} (h : escapesRoot name = true) :
    stripGoRootPrefix name = .error "unexpected archive root" := by
  unfold escapesRoot at h
  unfold stripGoRootPrefix
  by_cases habs : name.isAbs
  · rw [if_pos habs]
  rw [if_neg habs]
  have hmatch : (match cleanSegs false name.segs with
      | s :: _ => decide (s = "..")
      | [] => false) = true := by
    rcases Bool.or_eq_true_iff.mp h with h1 | h1
    · exact absurd (by simpa using h1) habs
    · exact h1
  cases hc : cleanSegs false name.segs with
  | nil =>
    rfl
  | cons first rest =>
    rw [hc] at hmatch
    simp only [decide_eq_true_eq] at hmatch
    show (if first = "go" then (Except.ok rest : Except String (List String))
        else .error "unexpected archive root") = .error "unexpected archive root"
    rw [if_neg (by rw [hmatch]; decide)]

/-! ## The extraction pipeline itself -/

/-- Entry loop of extractGoArchive (part_005:196-248): strip the `go` prefix
(an empty relative path is skipped), join under the temporary directory
(`filepath.Join` cleans the joined path), enforce ensureSafePath, then write
the directory, file or symlink — other entry kinds are skipped.  Returns the
loop result together with every path written under the temporary directory,
in order. -/
def extractEntries (tmpBase : List String) :
    List TarItem → List (List String × EntryKind) →
      Except String Unit × List (List String × EntryKind)
  | [], acc => (.ok (), acc)
  | .readErr :: _, acc => (.error "read tar entry", acc)
  | .entry e :: rest, acc =>
    match stripGoRootPrefix e.name with
    | .error msg => (.error msg, acc)
    | .ok [] => extractEntries tmpBase rest acc
    | .ok (r :: rs) =>
      let targetPath := cleanSegs false (tmpBase ++ (r :: rs))
      if ensureSafePath (cleanSegs false tmpBase) targetPath = false then
        (.error "unsafe archive path", acc)
      else if e.kind = .other then extractEntries tmpBase rest acc
      else extractEntries tmpBase rest (acc ++ [(targetPath, e.kind)])

structure ExtractOutcome where
  res : Except String Unit
  targetAfter : Option (List (List String × EntryKind))
  writes : List (List String × EntryKind)

/-- Model of extractGoArchive (part_005:161-255): any pre-existing directory
at the target path is removed FIRST (part_005:162-164, before any entry is
read); extraction then writes into a fresh temporary sibling directory which
the deferred cleanup removes unless, after every entry succeeded, it is
renamed over the target path.  `setupOK` covers the pre-loop steps (creating
the parent and temp directories, opening the archive, the gzip reader);
`pre` is the content at the target path before the call, and `targetAfter`
the content there after it. -/
def extractGoArchive (tmpBase : List String) (setupOK : Bool) (items : List TarItem)
    (pre : Option (List (List String × EntryKind))) : ExtractOutcome :=
  -- os.RemoveAll(targetDir) runs before anything else: pre is discarded here
  let _ := pre
  if !setupOK then ⟨.error "setup failed", none, []⟩
  else
    match extractEntries tmpBase items [] with
    | (.error msg, ws) => ⟨.error msg, none, ws⟩
    | (.ok (), ws) => ⟨.ok (), some ws, ws⟩

theorem extractEntries_mem_error (tmpBase : List String) {e : TarEntry}
    (hstrip : stripGoRootPrefix e.name = .error "unexpected archive root") :
    ∀ (items : List TarItem) (acc : List (List String × EntryKind)),
      TarItem.entry e ∈ items →
      ∃ msg, (extractEntries tmpBase items acc).1 = .error msg := by
  intro items
  induction items with
  | nil =>
    intro acc hmem
    exact absurd hmem (List.not_mem_nil _)
  | cons item rest ih =>
    intro acc hmem
    cases item with
    | readErr => exact ⟨"read tar entry", rfl⟩
    | entry e2 =>
      cases hs2 : stripGoRootPrefix e2.name with
      | error msg =>
        refine ⟨msg, ?_⟩
        simp [extractEntries, hs2]
      | ok rel =>
        have hrest : TarItem.entry e ∈ rest := by
          rcases List.mem_cons.mp hmem with h | h
          · exfalso
            injection h with he
            rw [he] at hstrip
            rw [hs2] at hstrip
            exact absurd hstrip (by simp)
          · exact h
        cases rel with
        | nil =>
          have hred : extractEntries tmpBase (.entry e2 :: rest) acc =
              extractEntries tmpBase rest acc := by
            simp [extractEntries, hs2]
          rw [hred]
          exact ih acc hrest
        | cons r rs =>
          by_cases hsafe : ensureSafePath (cleanSegs false tmpBase)
              (cleanSegs false (tmpBase ++ (r :: rs))) = false
          · refine ⟨"unsafe archive path", ?_⟩
            simp [extractEntries, hs2, hsafe]
          · rw [Bool.not_eq_false] at hsafe
            by_cases hkind : e2.kind = .other
            · have hred : extractEntries tmpBase (.entry e2 :: rest) acc =
                  extractEntries tmpBase rest acc := by
                simp [extractEntries, hs2, hsafe, hkind]
              rw [hred]
              exact ih acc hrest
            · have hred : extractEntries tmpBase (.entry e2 :: rest) acc =
                  extractEntries tmpBase rest
                    (acc ++ [(cleanSegs false (tmpBase ++ (r :: rs)), e2.kind)]) := by
                simp [extractEntries, hs2, hsafe, hkind]
              rw [hred]
              exact ih _ hrest

theorem extractEntries_writes_under_tmp (tmpBase : List String)
    (htmp : ∀ s ∈ tmpBase, s ≠ "" ∧ s ≠ "." ∧ s ≠ "..") :
    ∀ (items : List TarItem) (acc : List (List String × EntryKind)),
      (∀ w ∈ acc, tmpBase <+: w.1 ∧ w.1 ≠ tmpBase) →
      ∀ w ∈ (extractEntries tmpBase items acc).2, tmpBase <+: w.1 ∧ w.1 ≠ tmpBase := by
  intro items
  induction items with
  | nil =>
    intro acc hacc
    exact hacc
  | cons item rest ih =>
    intro acc hacc
    cases item with
    | readErr => exact hacc
    | entry e2 =>
      cases hs2 : stripGoRootPrefix e2.name with
      | error msg =>
        have hred : extractEntries tmpBase (.entry e2 :: rest) acc = (.error msg, acc) := by
          simp [extractEntries, hs2]
        rw [hred]
        exact hacc
      | ok rel =>
        cases rel with
        | nil =>
          have hred : extractEntries tmpBase (.entry e2 :: rest) acc =
              extractEntries tmpBase rest acc := by
            simp [extractEntries, hs2]
          rw [hred]
          exact ih acc hacc
        | cons r rs =>
          have hrelgood : ∀ s ∈ (r :: rs), s ≠ "" ∧ s ≠ "." ∧ s ≠ ".." :=
            stripGoRootPrefix_ok_clean hs2
          have hjoin : cleanSegs false (tmpBase ++ (r :: rs)) = tmpBase ++ (r :: rs) := by
            apply cleanSegs_of_clean
            intro s hs
            rcases List.mem_append.mp hs with h | h
            · exact htmp s h
            · exact hrelgood s h
          have hprop : tmpBase <+: (tmpBase ++ (r :: rs)) ∧ tmpBase ++ (r :: rs) ≠ tmpBase := by
            constructor
            · exact List.prefix_append _ _
            · intro heq
              have := congrArg List.length heq
              simp at this
          by_cases hsafe : ensureSafePath (cleanSegs false tmpBase)
              (cleanSegs false (tmpBase ++ (r :: rs))) = false
          · have hred : extractEntries tmpBase (.entry e2 :: rest) acc =
                (.error "unsafe archive path", acc) := by
              simp [extractEntries, hs2, hsafe]
            rw [hred]
            exact hacc
          · rw [Bool.not_eq_false] at hsafe
            by_cases hkind : e2.kind = .other
            · have hred : extractEntries tmpBase (.entry e2 :: rest) acc =
                  extractEntries tmpBase rest acc := by
                simp [extractEntries, hs2, hsafe, hkind]
              rw [hred]
              exact ih acc hacc
            · have hred : extractEntries tmpBase (.entry e2 :: rest) acc =
                  extractEntries tmpBase rest
                    (acc ++ [(cleanSegs false (tmpBase ++ (r :: rs)), e2.kind)]) := by
                simp [extractEntries, hs2, hsafe, hkind]
              rw [hred]
              apply ih
              intro w hw
              rcases List.mem_append.mp hw with h | h
              · exact hacc w h
              · simp only [List.mem_singleton] at h
                subst h
                rw [hjoin]
                exact hprop

/-- Counterexample for C1: a pre-existing directory at the target path is
gone after an extraction that began processing entries (one entry processed,
then a tar read error) — the code removes it up-front (part_005:162), not at
promotion time, so the claim that it is "still present and unchanged" on
failure is false. -/
theorem C1_counterexample :
    (extractGoArchive ["toolchains", "go1.24.2"] true
        [.entry ⟨⟨false, ["go", "bin"]⟩, .dir⟩, .readErr]
        (some [(["keep"], .dir)])).res = .error "read tar entry" ∧
    (extractGoArchive ["toolchains", "go1.24.2"] true
        [.entry ⟨⟨false, ["go", "bin"]⟩, .dir⟩, .readErr]
        (some [(["keep"], .dir)])).targetAfter ≠ some [(["keep"], .dir)] := by
  exact ⟨rfl, by decide⟩

/-- C1 (amended): extractGoArchive removes any pre-existing directory at the
final target path at the start of the call, before processing entries; on
any failure the target path is left empty — the partial extraction lives
only in the temporary sibling directory, which is removed, and a partial
tree is never promoted to the target path; only on success is the fully
extracted tree renamed over the target. -/
theorem C1_target_empty_on_failure (tmpBase : List String) (setupOK : Bool)
    (items : List TarItem) (pre : Option (List (List String × EntryKind))) :
    (∀ msg, (extractGoArchive tmpBase setupOK items pre).res = .error msg →
      (extractGoArchive tmpBase setupOK items pre).targetAfter = none) ∧
    ((extractGoArchive tmpBase setupOK items pre).res = .ok () →
      (extractGoArchive tmpBase setupOK items pre).targetAfter =
        some (extractGoArchive tmpBase setupOK items pre).writes) := by
  cases setupOK with
  | false =>
    have hout : extractGoArchive tmpBase false items pre = ⟨.error "setup failed", none, []⟩ := by
      simp [extractGoArchive]
    rw [hout]
    exact ⟨fun msg _ => rfl, fun h => absurd h (by simp)⟩
  | true =>
    cases hloop : extractEntries tmpBase items [] with
    | mk r ws =>
      cases r with
      | error msg =>
        have hout : extractGoArchive tmpBase true items pre = ⟨.error msg, none, ws⟩ := by
          simp [extractGoArchive, hloop]
        rw [hout]
        exact ⟨fun m _ => rfl, fun h => absurd h (by simp)⟩
      | ok u =>
        cases u
        have hout : extractGoArchive tmpBase true items pre = ⟨.ok (), some ws, ws⟩ := by
          simp [extractGoArchive, hloop]
        rw [hout]
        exact ⟨fun m h => absurd h (by simp), fun _ => rfl⟩

/-- Witness for C1 (amended): a tar read error as the very first item leaves
the target path empty. -/
theorem C1_target_empty_on_failure_witness :
    (extractGoArchive ["toolchains", "go1.24.2"] true [.readErr]
        (some [(["keep"], .dir)])).targetAfter = none :=
  (C1_target_empty_on_failure ["toolchains", "go1.24.2"] true [.readErr]
      (some [(["keep"], .dir)])).1 "read tar entry" (by rfl)

/-- C2: for every archive containing an entry whose cleaned path escapes the
extraction root (a `..` prefix or an absolute path), extraction returns an
error, every path written during the call lies strictly inside the temporary
extraction root, and nothing is promoted to the target path. -/
theorem C2_path_traversal_rejected (tmpBase : List String) (items : List TarItem)
    (pre : Option (List (List String × EntryKind))) (e : TarEntry)
    (htmp : ∀ s ∈ tmpBase, s ≠ "" ∧ s ≠ "." ∧ s ≠ "..")
    (hmem : TarItem.entry e ∈ items) (hesc : escapesRoot e.name = true) :
    (∃ msg, (extractGoArchive tmpBase true items pre).res = .error msg) ∧
    (∀ w ∈ (extractGoArchive tmpBase true items pre).writes,
      tmpBase <+: w.1 ∧ w.1 ≠ tmpBase) ∧
    (extractGoArchive tmpBase true items pre).targetAfter = none := by
  have hstrip := escapesRoot_strip_error hesc
  obtain ⟨msg, hmsg⟩ := extractEntries_mem_error tmpBase hstrip items [] hmem
  have hwrites := extractEntries_writes_under_tmp tmpBase htmp items []
    (fun w hw => absurd hw (List.not_mem_nil w))
  cases hloop : extractEntries tmpBase items [] with
  | mk r ws =>
    rw [hloop] at hmsg hwrites
    simp only at hmsg hwrites
    subst hmsg
    have hout : extractGoArchive tmpBase true items pre = ⟨.error msg, none, ws⟩ := by
      simp [extractGoArchive, hloop]
    rw [hout]
    exact ⟨⟨msg, rfl⟩, hwrites, rfl⟩

/-- Witness for C2: the archive entry `go/../../etc/passwd` (which is
`../../etc/passwd` after prefix-stripping) makes extraction fail with
nothing at the target path. -/
theorem C2_path_traversal_rejected_witness :
    (extractGoArchive ["toolchains", "go1.24.2"] true
        [.entry ⟨⟨false, ["go", "..", "..", "etc", "passwd"]⟩, .reg 1⟩]
        none).targetAfter = none :=
  (C2_path_traversal_rejected ["toolchains", "go1.24.2"]
      [.entry ⟨⟨false, ["go", "..", "..", "etc", "passwd"]⟩, .reg 1⟩]
      none ⟨⟨false, ["go", "..", "..", "etc", "passwd"]⟩, .reg 1⟩
      (by decide) (by decide) (by decide)).2.2

/-! ## Model of version comparison and the descending sort (version.go:63-96,
state.go:145-183) -/

/-- Model of ParseGoVersion (version.go:39-61): normalize, then re-parse the
rendered components — which returns exactly the numbers produced by the
normalization (the digit round trip proved above). -/
def parseGoVersion (v : List Char) : Option (Nat × Nat × Nat) := normalizeNums v

/-- Component comparison of CompareGoVersions (version.go:74-95) as an
`Ordering`: the source's -1/0/1. -/
def cmpTriple (x y : Nat × Nat × Nat) : Ordering :=
  if x.1 ≠ y.1 then (if x.1 < y.1 then .lt else .gt)
  else if x.2.1 ≠ y.2.1 then (if x.2.1 < y.2.1 then .lt else .gt)
  else if x.2.2 ≠ y.2.2 then (if x.2.2 < y.2.2 then .lt else .gt)
  else .eq

/-- Model of CompareGoVersions (version.go:63-96): parse both, fail if either
fails. -/
def compareGoVersions (a b : List Char) : Option Ordering :=
  match parseGoVersion a, parseGoVersion b with
  | some x, some y => some (cmpTriple x y)
  | _, _ => none

/-- Byte-wise string `>` used as the sort fallback (state.go:177). -/
def lexGT : List Char → List Char → Bool
  | [], _ => false
  | _ :: _, [] => true
  | a :: as, b :: bs => if a = b then lexGT as bs else decide (b < a)

/-- The `less` function of ListInstalledVersions' sort.Slice
(state.go:174-180): a sorts before b when the comparison says a > b, falling
back to the raw string comparison when parsing fails. -/
def goBefore (a b : List Char) : Bool :=
  match compareGoVersions a b with
  | none => lexGT a b
  | some o => decide (o = .gt)

/-- Insertion step of the descending sort. -/
def insertDesc (a : List Char) : List (List Char) → List (List Char)
  | [] => [a]
  | b :: t => if goBefore a b then a :: b :: t else b :: insertDesc a t

/-- Descending sort by `goBefore`, modelling the sort.Slice call. -/
def sortDesc (l : List (List Char)) : List (List Char) := l.foldr insertDesc []

/-- Model of ListInstalledVersions (state.go:145-183): the toolchain
directory names that normalize (entries that are not directories, fail
normalization, or lack bin/go are absent from the modelled `toolchains`
set or dropped by the filter), sorted descending. -/
def listInstalledVersions (toolchains : List (List Char)) : List (List Char) :=
  sortDesc (toolchains.filterMap normalizeGoVersion)

theorem cmpTriple_self (x : Nat × Nat × Nat) : cmpTriple x x = .eq := by
  unfold cmpTriple
  simp

theorem cmpTriple_gt_asymm {x y : Nat × Nat × Nat} (h : cmpTriple x y = .gt) :
    cmpTriple y x ≠ .gt := by
  unfold cmpTriple at *
  split_ifs at * <;> simp_all <;> omega

theorem cmpTriple_gt_trans {x y z : Nat × Nat × Nat} (h1 : cmpTriple x y = .gt)
    (h2 : cmpTriple y z = .gt) : cmpTriple x z = .gt := by
  unfold cmpTriple at *
  split_ifs at * <;> simp_all <;> omega

theorem goBefore_canon {a b : List Char} {x y : Nat × Nat × Nat}
    (ha : parseGoVersion a = some x) (hb : parseGoVersion b = some y) :
    goBefore a b = decide (cmpTriple x y = .gt) := by
  unfold goBefore compareGoVersions
  rw [ha, hb]

theorem goBefore_irrefl {a : List Char} {x : Nat × Nat × Nat}
    (ha : parseGoVersion a = some x) : goBefore a a = false := by
  rw [goBefore_canon ha ha, cmpTriple_self]
  decide

theorem goBefore_asymm {a b : List Char} {x y : Nat × Nat × Nat}
    (ha : parseGoVersion a = some x) (hb : parseGoVersion b = some y)
    (h : goBefore a b = true) : goBefore b a = false := by
  rw [goBefore_canon ha hb] at h
  rw [goBefore_canon hb ha]
  simp only [decide_eq_true_eq] at h
  simp only [decide_eq_false_iff_not]
  exact cmpTriple_gt_asymm h

theorem goBefore_step {a b y : List Char} {ta tb ty : Nat × Nat × Nat}
    (ha : parseGoVersion a = some ta) (hb : parseGoVersion b = some tb)
    (hy : parseGoVersion y = some ty)
    (h1 : goBefore y b = false) (h2 : goBefore a b = true) : goBefore y a = false := by
  rw [goBefore_canon hy hb] at h1
  rw [goBefore_canon ha hb] at h2
  rw [goBefore_canon hy ha]
  simp only [decide_eq_false_iff_not] at h1
  simp only [decide_eq_true_eq] at h2
  simp only [decide_eq_false_iff_not]
  intro hya
  exact h1 (cmpTriple_gt_trans hya h2)

theorem insertDesc_mem (a x : List Char) :
    ∀ l : List (List Char), x ∈ insertDesc a l ↔ x = a ∨ x ∈ l := by
  intro l
  induction l with
  | nil => simp [insertDesc]
  | cons b t ih =>
    unfold insertDesc
    by_cases hb : goBefore a b = true
    · rw [if_pos hb]
      simp
    · rw [if_neg hb]
      simp only [List.mem_cons, ih]
      tauto

/-- Canonicity of a version list: every element parses. -/
def CanonList (l : List (List Char)) : Prop :=
  ∀ x ∈ l, ∃ t, parseGoVersion x = some t

theorem insertDesc_pairwise {a : List Char} {ta : Nat × Nat × Nat}
    (ha : parseGoVersion a = some ta) :
    ∀ l : List (List Char), CanonList l →
      List.Pairwise (fun u v => goBefore v u = false) l →
      List.Pairwise (fun u v => goBefore v u = false) (insertDesc a l) := by
  intro l
  induction l with
  | nil =>
    intro _ _
    simp [insertDesc]
  | cons b t ih =>
    intro hcanon hpw
    obtain ⟨tb, hb⟩ := hcanon b (List.mem_cons_self _ _)
    rw [List.pairwise_cons] at hpw
    obtain ⟨hbt, hpwt⟩ := hpw
    unfold insertDesc
    by_cases hab : goBefore a b = true
    · rw [if_pos hab]
      rw [List.pairwise_cons]
      constructor
      · intro y hy
        rcases List.mem_cons.mp hy with h | h
        · subst h
          exact goBefore_asymm ha hb hab
        · obtain ⟨ty, hty⟩ := hcanon y (List.mem_cons_of_mem _ h)
          exact goBefore_step ha hb hty (hbt y h) hab
      · rw [List.pairwise_cons]
        exact ⟨hbt, hpwt⟩
    · rw [if_neg hab]
      rw [List.pairwise_cons]
      constructor
      · intro y hy
        rcases (insertDesc_mem a y t).mp hy with h | h
        · subst h
          exact Bool.not_eq_true _ ▸ (by simpa using hab)
        · exact hbt y h
      · exact ih (fun x hx => hcanon x (List.mem_cons_of_mem _ hx)) hpwt

theorem sortDesc_mem (x : List Char) :
    ∀ l : List (List Char), x ∈ sortDesc l ↔ x ∈ l := by
  intro l
  induction l with
  | nil => simp [sortDesc]
  | cons b t ih =>
    unfold sortDesc at *
    simp only [List.foldr_cons]
    rw [insertDesc_mem, ih]
    simp

theorem sortDesc_pairwise :
    ∀ l : List (List Char), CanonList l →
      List.Pairwise (fun u v => goBefore v u = false) (sortDesc l) := by
  intro l
  induction l with
  | nil =>
    intro _
    simp [sortDesc]
  | cons b t ih =>
    intro hcanon
    obtain ⟨tb, hb⟩ := hcanon b (List.mem_cons_self _ _)
    unfold sortDesc at *
    simp only [List.foldr_cons]
    apply insertDesc_pairwise hb
    · intro x hx
      exact hcanon x (List.mem_cons_of_mem _ ((sortDesc_mem x t).mp hx))
    · exact ih (fun x hx => hcanon x (List.mem_cons_of_mem _ hx))

/-- The head of the descending sort of a canonical list is a maximum: no
element of the list compares strictly greater. -/
theorem sortDesc_head_max {l rest : List (List Char)} {newest : List Char}
    (hcanon : CanonList l) (h : sortDesc l = newest :: rest) :
    newest ∈ l ∧ ∀ x ∈ l, goBefore x newest = false := by
  have hmem : newest ∈ l := (sortDesc_mem newest l).mp (h ▸ List.mem_cons_self _ _)
  refine ⟨hmem, ?_⟩
  intro x hx
  have hx2 : x ∈ sortDesc l := (sortDesc_mem x l).mpr hx
  rw [h] at hx2
  rcases List.mem_cons.mp hx2 with heq | htail
  · subst heq
    obtain ⟨tx, htx⟩ := hcanon x hmem
    exact goBefore_irrefl htx
  · have hpw := sortDesc_pairwise l hcanon
    rw [h, List.pairwise_cons] at hpw
    exact hpw.1 x htail

theorem filterMap_normalize_self :
    ∀ l : List (List Char), (∀ x ∈ l, normalizeGoVersion x = some x) →
      l.filterMap normalizeGoVersion = l := by
  intro l
  induction l with
  | nil =>
    intro _
    rfl
  | cons b t ih =>
    intro h
    rw [List.filterMap_cons]
    rw [h b (List.mem_cons_self _ _)]
    rw [ih (fun x hx => h x (List.mem_cons_of_mem _ hx))]

theorem parse_isSome_of_normalize {x y : List Char} (h : normalizeGoVersion x = some y) :
    ∃ t, parseGoVersion x = some t := by
  unfold normalizeGoVersion at h
  unfold parseGoVersion
  cases hn : normalizeNums x with
  | none =>
    rw [hn] at h
    exact absurd h (by simp)
  | some t => exact ⟨t, rfl⟩

/-! ## Model of the delete workflow (service.go:200-304)

The orchestration state gathers the pieces of on-disk state the workflow
touches: the pin files, the config's global version and companion-tool
mapping, and the set of installed toolchain directory names (whose presence
of bin/go is what makes them installed).  Read/write I/O failures of the
config itself are not modelled. -/

structure OrchState where
  pins : Dir → Option (List Char)
  globalV : List Char
  toolchains : List (List Char)
  lintByGo : List (List Char × List Char)

/-- Model of switcher.DeleteResult (the struct in internal/switcher), with
the zero ActiveVersion and empty warning string rendered as `none`. -/
structure DeleteResultM where
  deletedVersion : List Char
  wasActive : Bool
  switchedToNewest : Bool
  activeAfter : Option ActiveVersion
  toolSyncWarning : Option String

inductive DeleteErr where
  | badVersion
  | resolveFailed (e : ResolveError)
  | shimsFailed
deriving DecidableEq

/-- Modelled from the spec: `DeleteInstalledVersion` is not under src/ (only
its caller service.go:214 is); the spec says "remove the toolchain
directory", so the version's directory leaves the toolchain set. -/
def deleteInstalledVersion (s : OrchState) (v : List Char) : OrchState :=
  { s with toolchains := s.toolchains.erase v }

/-- Model of deleteLintMapping (service.go:288-304): drop the companion-tool
mapping entry keyed by the deleted toolchain version. -/
def deleteLintMapping (s : OrchState) (v : List Char) : OrchState :=
  { s with lintByGo := s.lintByGo.filter (fun kv => decide (kv.1 ≠ v)) }

/-- Modelled from the spec: `SetLocalVersionAtPath` is not under src/ (only
its caller service.go:259 is); the spec's pin file is a single line holding
the normalized version plus trailing newline, written at the given path. -/
def setLocalVersionAtPath (s : OrchState) (dir : Dir) (v : List Char) : OrchState :=
  { s with pins := fun d => if d = dir then some (v ++ ['\n']) else s.pins d }

/-- Modelled from the spec: `ClearLocalVersionAtPath` is not under src/ (only
its caller service.go:242 is); it removes the pin file at the given path. -/
def clearLocalVersionAtPath (s : OrchState) (dir : Dir) : OrchState :=
  { s with pins := fun d => if d = dir then none else s.pins d }

/-- Modelled from the spec: `SetGlobalVersion` is not under src/ (only its
caller service.go:263 is); it performs a read-modify-write of the config's
global version. -/
def setGlobalVersion (s : OrchState) (v : List Char) : OrchState :=
  { s with globalV := v }

/-- Modelled from the spec: `ClearGlobalVersion` is not under src/ (only its
caller service.go:246 is); it clears the config's global version. -/
def clearGlobalVersion (s : OrchState) : OrchState :=
  { s with globalV := [] }

/-- Coarse model of SyncToolsForVersionWithProgress (service.go:182-198 with
tools.EnsureForGoVersionWithOptions): a successful sync records the
recommended companion version for the synced toolchain in the mapping. -/
def syncToolsForVersion (recommended : List Char → List Char) (s : OrchState)
    (v : List Char) : OrchState :=
  { s with lintByGo := (v, recommended v) :: s.lintByGo.filter (fun kv => decide (kv.1 ≠ v)) }

def deleteResultInactive (s2 : OrchState) (cwd : Dir) (normalized : List Char) :
    Except DeleteErr (DeleteResultM × OrchState) :=
  .ok ({ deletedVersion := normalized, wasActive := false, switchedToNewest := false,
         activeAfter := (resolveActiveVersion ⟨s2.pins⟩ s2.globalV cwd).toOption,
         toolSyncWarning := none }, s2)

/-- Model of DeleteInstalledWithProgress (service.go:200-286): normalize,
resolve the active version (only the no-active sentinel is tolerated),
delete the toolchain directory and its mapping entry; when the deleted
version was active, either clear the pin (no version remains) or reassign
the pin in the active scope to the head of the descending ListLocal and
re-sync the companion tool, downgrading a sync failure to a warning.
`shimsOK` and `syncOK` are the outcomes of EnsureShims and the tool sync. -/
def deleteInstalledWithProgress (recommended : List Char → List Char)
    (shimsOK syncOK : Bool) (s : OrchState) (cwd : Dir) (version : List Char) :
    Except DeleteErr (DeleteResultM × OrchState) :=
  match normalizeGoVersion version with
  | none => .error .badVersion
  | some normalized =>
    match resolveActiveVersion ⟨s.pins⟩ s.globalV cwd with
    | .error e =>
      if e = .noActiveVersion then
        deleteResultInactive (deleteLintMapping (deleteInstalledVersion s normalized)
          normalized) cwd normalized
      else .error (.resolveFailed e)
    | .ok a =>
      let s2 := deleteLintMapping (deleteInstalledVersion s normalized) normalized
      if a.version ≠ normalized then deleteResultInactive s2 cwd normalized
      else
        match listInstalledVersions s2.toolchains with
        | [] =>
          let s3 :=
            match a.scope, a.source with
            | .scopeLocal, .pinFile dir => clearLocalVersionAtPath s2 dir
            | .scopeLocal, .configFile => s2
            | .scopeGlobal, _ => clearGlobalVersion s2
          .ok ({ deletedVersion := normalized, wasActive := true, switchedToNewest := false,
                 activeAfter := none, toolSyncWarning := none }, s3)
        | newest :: _ =>
          let s3 :=
            match a.scope, a.source with
            | .scopeLocal, .pinFile dir => setLocalVersionAtPath s2 dir newest
            | .scopeLocal, .configFile => s2
            | .scopeGlobal, _ => setGlobalVersion s2 newest
          if shimsOK = false then .error .shimsFailed
          else
            let s4 := if syncOK then syncToolsForVersion recommended s3 newest else s3
            .ok ({ deletedVersion := normalized, wasActive := true, switchedToNewest := true,
                   activeAfter := (resolveActiveVersion ⟨s4.pins⟩ s4.globalV cwd).toOption,
                   toolSyncWarning := if syncOK then none else some "sync failed" }, s4)

theorem lookup_none_of_keys_ne {nv : List Char} :
    ∀ l : List (List Char × List Char), (∀ kv ∈ l, kv.1 ≠ nv) → l.lookup nv = none := by
  intro l
  induction l with
  | nil =>
    intro _
    rfl
  | cons kv t ih =>
    intro h
    cases kv with
    | mk k v =>
      have hk : k ≠ nv := h (k, v) (List.mem_cons_self _ _)
      simp only [List.lookup]
      rw [show (nv == k) = false from beq_eq_false_iff_ne.mpr (Ne.symm hk)]
      exact ih (fun kv2 hm => h kv2 (List.mem_cons_of_mem _ hm))

theorem filter_ne_keys (nv : List Char) (l : List (List Char × List Char)) :
    ∀ kv ∈ l.filter (fun kv => decide (kv.1 ≠ nv)), kv.1 ≠ nv := by
  intro kv hm
  have h := List.mem_filter.mp hm
  simpa using h.2

/-- C7: deleting the currently active version with other versions remaining
removes the toolchain directory and its companion-tool mapping entry,
reassigns the pin in the active scope to the newest remaining installed
version (no remaining version compares greater), sets SwitchedToNewest, and
downgrades a companion-tool re-sync failure to a non-fatal warning on an
otherwise successful result. -/
theorem C7_delete_active_switches_to_newest
    (recommended : List Char → List Char) (syncOK : Bool) (s : OrchState) (cwd : Dir)
    (version nv newest : List Char) (restRem : List (List Char)) (a : ActiveVersion)
    (hnorm : normalizeGoVersion version = some nv)
    (hres : resolveActiveVersion ⟨s.pins⟩ s.globalV cwd = .ok a)
    (hav : a.version = nv)
    (htc : ∀ x ∈ s.toolchains, normalizeGoVersion x = some x)
    (hnd : nv ∉ s.toolchains.erase nv)
    (hrem : listInstalledVersions (s.toolchains.erase nv) = newest :: restRem) :
    (∃ rs, deleteInstalledWithProgress recommended true syncOK s cwd version = .ok rs) ∧
    (∀ r s4, deleteInstalledWithProgress recommended true syncOK s cwd version =
        .ok (r, s4) →
      r.wasActive = true ∧
      r.switchedToNewest = true ∧
      r.deletedVersion = nv ∧
      s4.toolchains = s.toolchains.erase nv ∧
      s4.lintByGo.lookup nv = none ∧
      (∀ dir : Dir, a.source = .pinFile dir → a.scope = .scopeLocal →
        s4.pins dir = some (newest ++ ['\n'])) ∧
      (a.scope = .scopeGlobal → s4.globalV = newest) ∧
      newest ∈ s.toolchains.erase nv ∧
      (∀ x ∈ s.toolchains.erase nv, goBefore x newest = false) ∧
      r.toolSyncWarning = (if syncOK then none else some "sync failed")) := by
  have hcanon : CanonList (s.toolchains.erase nv) := by
    intro x hx
    exact parse_isSome_of_normalize (htc x (List.mem_of_mem_erase hx))
  have hfm : (s.toolchains.erase nv).filterMap normalizeGoVersion = s.toolchains.erase nv :=
    filterMap_normalize_self _ (fun x hx => htc x (List.mem_of_mem_erase hx))
  have hsort : sortDesc (s.toolchains.erase nv) = newest :: restRem := by
    unfold listInstalledVersions at hrem
    rw [hfm] at hrem
    exact hrem
  obtain ⟨hnewmem, hnewmax⟩ := sortDesc_head_max hcanon hsort
  have hnewne : newest ≠ nv := fun he => hnd (he ▸ hnewmem)
  have hlist : listInstalledVersions
      (deleteLintMapping (deleteInstalledVersion s nv) nv).toolchains = newest :: restRem := by
    rw [show (deleteLintMapping (deleteInstalledVersion s nv) nv).toolchains =
      s.toolchains.erase nv from rfl]
    exact hrem
  have hlookup2 : (s.lintByGo.filter (fun kv => decide (kv.1 ≠ nv))).lookup nv = none :=
    lookup_none_of_keys_ne _ (filter_ne_keys nv s.lintByGo)
  have hlookup3 : ((newest, recommended newest) ::
      (s.lintByGo.filter (fun kv => decide (kv.1 ≠ nv))).filter
        (fun kv => decide (kv.1 ≠ newest))).lookup nv = none := by
    simp only [List.lookup]
    rw [show (nv == newest) = false from beq_eq_false_iff_ne.mpr (Ne.symm hnewne)]
    apply lookup_none_of_keys_ne
    intro kv hm
    exact filter_ne_keys nv _ kv (List.mem_filter.mp hm).1
  obtain ⟨av, asc, asrc⟩ := a
  simp only at hav
  subst hav
  cases asc with
  | scopeLocal =>
    cases asrc with
    | pinFile dir =>
      constructor
      · simp [deleteInstalledWithProgress, hnorm, hres, hlist]
      · intro r s4 hrun
        simp only [deleteInstalledWithProgress, hnorm, hres, hlist] at hrun
        simp only [ne_eq, not_true_eq_false, if_false, Bool.true_eq_false] at hrun
        rw [Except.ok.injEq, Prod.mk.injEq] at hrun
        obtain ⟨hr, hs4⟩ := hrun
        subst hr
        subst hs4
        cases syncOK with
        | false =>
          refine ⟨rfl, rfl, rfl, rfl, hlookup2, ?_, ?_, hnewmem, hnewmax, rfl⟩
          · intro dir2 hsrc _
            injection hsrc with hd
            subst hd
            simp [setLocalVersionAtPath]
          · intro hsc
            exact absurd hsc (by simp)
        | true =>
          refine ⟨rfl, rfl, rfl, rfl, hlookup3, ?_, ?_, hnewmem, hnewmax, rfl⟩
          · intro dir2 hsrc _
            injection hsrc with hd
            subst hd
            simp [syncToolsForVersion, setLocalVersionAtPath]
          · intro hsc
            exact absurd hsc (by simp)
    | configFile =>
      constructor
      · simp [deleteInstalledWithProgress, hnorm, hres, hlist]
      · intro r s4 hrun
        simp only [deleteInstalledWithProgress, hnorm, hres, hlist] at hrun
        simp only [ne_eq, not_true_eq_false, if_false, Bool.true_eq_false] at hrun
        rw [Except.ok.injEq, Prod.mk.injEq] at hrun
        obtain ⟨hr, hs4⟩ := hrun
        subst hr
        subst hs4
        cases syncOK with
        | false =>
          refine ⟨rfl, rfl, rfl, rfl, hlookup2, ?_, ?_, hnewmem, hnewmax, rfl⟩
          · intro dir2 hsrc _
            exact absurd hsrc (by simp)
          · intro hsc
            exact absurd hsc (by simp)
        | true =>
          refine ⟨rfl, rfl, rfl, rfl, hlookup3, ?_, ?_, hnewmem, hnewmax, rfl⟩
          · intro dir2 hsrc _
            exact absurd hsrc (by simp)
          · intro hsc
            exact absurd hsc (by simp)
  | scopeGlobal =>
    constructor
    · simp [deleteInstalledWithProgress, hnorm, hres, hlist]
    · intro r s4 hrun
      simp only [deleteInstalledWithProgress, hnorm, hres, hlist] at hrun
      simp only [ne_eq, not_true_eq_false, if_false, Bool.true_eq_false] at hrun
      rw [Except.ok.injEq, Prod.mk.injEq] at hrun
      obtain ⟨hr, hs4⟩ := hrun
      subst hr
      subst hs4
      cases syncOK with
      | false =>
        refine ⟨rfl, rfl, rfl, rfl, hlookup2, ?_, ?_, hnewmem, hnewmax, rfl⟩
        · intro dir2 _ hsc
          exact absurd hsc (by simp)
        · intro _
          rfl
      | true =>
        refine ⟨rfl, rfl, rfl, rfl, hlookup3, ?_, ?_, hnewmem, hnewmax, rfl⟩
        · intro dir2 _ hsc
          exact absurd hsc (by simp)
        · intro _
          rfl

/-- Witness for C7: two installed toolchains go1.25.0 and go1.24.0, a local
pin on go1.25.0 in the project directory; deleting go1.25.0 with the
companion-tool sync failing still succeeds. -/
theorem C7_delete_active_switches_to_newest_witness :
    ∃ rs, deleteInstalledWithProgress (fun _ => "v1.64.8".toList) true false
      ⟨fun d => if d = ["project"] then some ("go1.25.0\n".toList) else none,
       [],
       ["go1.25.0".toList, "go1.24.0".toList],
       [("go1.25.0".toList, "v1.61.0".toList), ("go1.24.0".toList, "v1.60.3".toList)]⟩
      ["project"] ("go1.25.0".toList) = .ok rs :=
  (C7_delete_active_switches_to_newest (fun _ => "v1.64.8".toList) false
      ⟨fun d => if d = ["project"] then some ("go1.25.0\n".toList) else none,
       [],
       ["go1.25.0".toList, "go1.24.0".toList],
       [("go1.25.0".toList, "v1.61.0".toList), ("go1.24.0".toList, "v1.60.3".toList)]⟩
      ["project"] ("go1.25.0".toList) ("go1.25.0".toList) ("go1.24.0".toList) []
      ⟨"go1.25.0".toList, .scopeLocal, .pinFile ["project"]⟩
      (by rfl) (by rfl) (by rfl) (by decide) (by decide) (by rfl)).1

/-! ## Model of the progress bridge (part_007:506-643)

startInstall (part_007:506-531) runs the workflow in a background goroutine
that emits progress events into a channel of capacity 128 with a non-blocking
send (the event is dropped when the buffer is full), then closes the event
channel, sends the single terminal result into a channel of capacity 1, and
closes that too.  waitAsyncCmd (part_007:601-643) is the consumer: with both
channels armed it waits in a `select` over both — Go's select chooses among
simultaneously ready cases nondeterministically, with no preference — a
closed-and-drained event channel falls through to a blocking receive on the
result channel, and the Update handlers (part_007:148-256) re-arm the wait
after a progress message and stop after a terminal one.  The model is a
small-step transition system over the two goroutines; which enabled move
fires is the scheduler's nondeterminism, and the receive of a value from a
channel is atomic with the consumer's handling of it. -/

structure BridgeState where
  prodSent : Nat
  evQ : List Nat
  evClosed : Bool
  resQ : Bool
  resSent : Bool
  resClosed : Bool
  consumed : Nat
  delivered : Nat
  consDone : Bool
deriving DecidableEq

def initBridge : BridgeState :=
  ⟨0, [], false, false, false, false, 0, 0, false⟩

inductive BridgeMove where
  | emit
  | closeEvents
  | sendResult
  | closeResult
  | takeEvent
  | takeResult
  | takeClosedResult
deriving DecidableEq

/-- One interleaving step; `events` is how many progress events the workflow
emits in total.  `none` means the move is not enabled in that state. -/
def bridgeStep (events : Nat) (s : BridgeState) : BridgeMove → Option BridgeState
  | .emit =>
    -- the reporter's non-blocking buffered send (part_007:511-516)
    if s.prodSent < events ∧ s.evClosed = false then
      some { s with
        prodSent := s.prodSent + 1
        evQ := if s.evQ.length < 128 then s.evQ ++ [s.prodSent] else s.evQ }
    else none
  | .closeEvents =>
    -- close(progressCh) after the workflow returns (part_007:519)
    if s.prodSent = events ∧ s.evClosed = false then
      some { s with evClosed := true }
    else none
  | .sendResult =>
    -- doneCh <- msg into the capacity-1 buffer (part_007:520)
    if s.evClosed = true ∧ s.resSent = false ∧ s.resQ = false then
      some { s with resQ := true, resSent := true }
    else none
  | .closeResult =>
    -- close(doneCh) (part_007:521)
    if s.resSent = true ∧ s.resClosed = false then
      some { s with resClosed := true }
    else none
  | .takeEvent =>
    -- select receives a pending event; Update re-arms (part_007:623, 640)
    match s.evQ with
    | _ :: rest =>
      if s.consDone = false then
        some { s with evQ := rest, consumed := s.consumed + 1 }
      else none
    | [] => none
  | .takeResult =>
    -- the result reaches the consumer, terminal (part_007:611-617, 626-638)
    if s.consDone = false ∧ s.resQ = true then
      some { s with resQ := false, delivered := s.delivered + 1, consDone := true }
    else none
  | .takeClosedResult =>
    -- a receive from the closed, drained result channel (ok = false)
    if s.consDone = false ∧ s.resQ = false ∧ s.resClosed = true then
      some { s with consDone := true }
    else none

def runBridge (events : Nat) : BridgeState → List BridgeMove → Option BridgeState
  | s, [] => some s
  | s, m :: ms =>
    match bridgeStep events s m with
    | none => none
    | some s2 => runBridge events s2 ms

/-- Reachability invariant of the bridge. -/
structure BridgeInv (events : Nat) (s : BridgeState) : Prop where
  sentLe : s.prodSent ≤ events
  closedSent : s.evClosed = true → s.prodSent = events
  resSentClosed : s.resSent = true → s.evClosed = true
  resClosedSent : s.resClosed = true → s.resSent = true
  queued : s.resQ = true → s.resSent = true ∧ s.delivered = 0 ∧ s.consDone = false
  sentDelivery : s.resSent = true → (s.resQ = true ∨ s.delivered = 1)
  deliveredLe : s.delivered ≤ 1
  doneIff : s.consDone = true ↔ s.delivered = 1
  deliveredSent : s.delivered = 1 → s.resSent = true
  consumedLe : s.consumed + s.evQ.length ≤ s.prodSent

theorem bridgeInv_init (events : Nat) : BridgeInv events initBridge := by
  constructor <;> simp [initBridge]

/-- Step measure: every enabled move strictly decreases it. -/
def bridgeMeasure (events : Nat) (s : BridgeState) : Nat :=
  2 * (events - s.prodSent) + s.evQ.length +
  (if s.evClosed then 0 else 1) + (if s.resSent then 0 else 1) +
  (if s.resClosed then 0 else 1) + (if s.consDone then 0 else 1)

theorem bridgeStep_inv {events : Nat} {s s2 : BridgeState} {m : BridgeMove}
    (hstep : bridgeStep events s m = some s2) (inv : BridgeInv events s) :
    BridgeInv events s2 := by
  cases m with
  | emit =>
    simp only [bridgeStep] at hstep
    split at hstep
    case isTrue h =>
      rw [Option.some.injEq] at hstep
      subst hstep
      obtain ⟨hlt, hcl⟩ := h
      constructor
      · show s.prodSent + 1 ≤ events
        omega
      · intro hc
        rw [hcl] at hc
        exact absurd hc (by decide)
      · exact inv.resSentClosed
      · exact inv.resClosedSent
      · exact inv.queued
      · exact inv.sentDelivery
      · exact inv.deliveredLe
      · exact inv.doneIff
      · exact inv.deliveredSent
      · show s.consumed +
          (if s.evQ.length < 128 then s.evQ ++ [s.prodSent] else s.evQ).length ≤
            s.prodSent + 1
        have hc := inv.consumedLe
        by_cases hlen : s.evQ.length < 128
        · simp only [if_pos hlen, List.length_append, List.length_singleton]
          omega
        · simp only [if_neg hlen]
          omega
    case isFalse h => exact Option.noConfusion hstep
  | closeEvents =>
    simp only [bridgeStep] at hstep
    split at hstep
    case isTrue h =>
      rw [Option.some.injEq] at hstep
      subst hstep
      obtain ⟨heq, _⟩ := h
      constructor
      · exact inv.sentLe
      · intro _
        exact heq
      · intro _
        rfl
      · exact inv.resClosedSent
      · exact inv.queued
      · exact inv.sentDelivery
      · exact inv.deliveredLe
      · exact inv.doneIff
      · exact inv.deliveredSent
      · exact inv.consumedLe
    case isFalse h => exact Option.noConfusion hstep
  | sendResult =>
    simp only [bridgeStep] at hstep
    split at hstep
    case isTrue h =>
      rw [Option.some.injEq] at hstep
      subst hstep
      obtain ⟨hcl, hns, _⟩ := h
      have hd0 : s.delivered = 0 := by
        have hle := inv.deliveredLe
        by_cases hd : s.delivered = 1
        · rw [inv.deliveredSent hd] at hns
          exact absurd hns (by decide)
        · omega
      have hcd : s.consDone = false := by
        cases hc : s.consDone
        · rfl
        · have := inv.doneIff.mp hc
          omega
      constructor
      · exact inv.sentLe
      · exact inv.closedSent
      · intro _
        exact hcl
      · intro hc
        exact absurd (inv.resClosedSent hc) (by rw [hns]; decide)
      · intro _
        exact ⟨rfl, hd0, hcd⟩
      · intro _
        exact Or.inl rfl
      · exact inv.deliveredLe
      · exact inv.doneIff
      · intro hd
        rfl
      · exact inv.consumedLe
    case isFalse h => exact Option.noConfusion hstep
  | closeResult =>
    simp only [bridgeStep] at hstep
    split at hstep
    case isTrue h =>
      rw [Option.some.injEq] at hstep
      subst hstep
      obtain ⟨hrs, _⟩ := h
      constructor
      · exact inv.sentLe
      · exact inv.closedSent
      · exact inv.resSentClosed
      · intro _
        exact hrs
      · exact inv.queued
      · exact inv.sentDelivery
      · exact inv.deliveredLe
      · exact inv.doneIff
      · exact inv.deliveredSent
      · exact inv.consumedLe
    case isFalse h => exact Option.noConfusion hstep
  | takeEvent =>
    simp only [bridgeStep] at hstep
    cases hq : s.evQ with
    | nil =>
      rw [hq] at hstep
      exact Option.noConfusion hstep
    | cons e rest =>
      rw [hq] at hstep
      have hstep2 : (if s.consDone = false then
          some { s with evQ := rest, consumed := s.consumed + 1 } else none) = some s2 :=
        hstep
      split at hstep2
      case isTrue hcd =>
        rw [Option.some.injEq] at hstep2
        subst hstep2
        constructor
        · exact inv.sentLe
        · exact inv.closedSent
        · exact inv.resSentClosed
        · exact inv.resClosedSent
        · exact inv.queued
        · exact inv.sentDelivery
        · exact inv.deliveredLe
        · exact inv.doneIff
        · exact inv.deliveredSent
        · show s.consumed + 1 + rest.length ≤ s.prodSent
          have hc := inv.consumedLe
          rw [hq, List.length_cons] at hc
          omega
      case isFalse h => exact Option.noConfusion hstep2
  | takeResult =>
    simp only [bridgeStep] at hstep
    split at hstep
    case isTrue h =>
      rw [Option.some.injEq] at hstep
      subst hstep
      obtain ⟨hcd, hrq⟩ := h
      obtain ⟨hrs, hd0, _⟩ := inv.queued hrq
      constructor
      · exact inv.sentLe
      · exact inv.closedSent
      · exact inv.resSentClosed
      · exact inv.resClosedSent
      · intro hc
        simp at hc
      · intro _
        rw [hd0]
        exact Or.inr rfl
      · show s.delivered + 1 ≤ 1
        omega
      · constructor
        · intro _
          show s.delivered + 1 = 1
          omega
        · intro _
          rfl
      · intro _
        exact hrs
      · exact inv.consumedLe
    case isFalse h => exact Option.noConfusion hstep
  | takeClosedResult =>
    simp only [bridgeStep] at hstep
    split at hstep
    case isTrue h =>
      exfalso
      obtain ⟨hcd, hrq, hrc⟩ := h
      rcases inv.sentDelivery (inv.resClosedSent hrc) with h2 | h2
      · rw [hrq] at h2
        exact absurd h2 (by decide)
      · have := inv.doneIff.mpr h2
        rw [hcd] at this
        exact absurd this (by decide)
    case isFalse h => exact Option.noConfusion hstep

theorem bridgeStep_measure {events : Nat} {s s2 : BridgeState} {m : BridgeMove}
    (hstep : bridgeStep events s m = some s2) :
    bridgeMeasure events s2 < bridgeMeasure events s := by
  cases m with
  | emit =>
    simp only [bridgeStep] at hstep
    split at hstep
    case isTrue h =>
      rw [Option.some.injEq] at hstep
      subst hstep
      obtain ⟨hlt, hcl⟩ := h
      unfold bridgeMeasure
      by_cases hlen : s.evQ.length < 128
      · simp only [if_pos hlen, List.length_append, List.length_singleton]
        omega
      · simp only [if_neg hlen]
        omega
    case isFalse h => exact Option.noConfusion hstep
  | closeEvents =>
    simp only [bridgeStep] at hstep
    split at hstep
    case isTrue h =>
      rw [Option.some.injEq] at hstep
      subst hstep
      obtain ⟨heq, hcl⟩ := h
      unfold bridgeMeasure
      rw [hcl]
      simp only [if_true, if_false, Bool.false_eq_true]
      omega
    case isFalse h => exact Option.noConfusion hstep
  | sendResult =>
    simp only [bridgeStep] at hstep
    split at hstep
    case isTrue h =>
      rw [Option.some.injEq] at hstep
      subst hstep
      obtain ⟨hcl, hns, hnq⟩ := h
      unfold bridgeMeasure
      rw [hns]
      simp only [if_true, if_false, Bool.false_eq_true]
      omega
    case isFalse h => exact Option.noConfusion hstep
  | closeResult =>
    simp only [bridgeStep] at hstep
    split at hstep
    case isTrue h =>
      rw [Option.some.injEq] at hstep
      subst hstep
      obtain ⟨hrs, hnc⟩ := h
      unfold bridgeMeasure
      rw [hnc]
      simp only [if_true, if_false, Bool.false_eq_true]
      omega
    case isFalse h => exact Option.noConfusion hstep
  | takeEvent =>
    simp only [bridgeStep] at hstep
    cases hq : s.evQ with
    | nil =>
      rw [hq] at hstep
      exact Option.noConfusion hstep
    | cons e rest =>
      rw [hq] at hstep
      have hstep2 : (if s.consDone = false then
          some { s with evQ := rest, consumed := s.consumed + 1 } else none) = some s2 :=
        hstep
      split at hstep2
      case isTrue hcd =>
        rw [Option.some.injEq] at hstep2
        subst hstep2
        unfold bridgeMeasure
        rw [hq]
        simp only [List.length_cons]
        omega
      case isFalse h => exact Option.noConfusion hstep2
  | takeResult =>
    simp only [bridgeStep] at hstep
    split at hstep
    case isTrue h =>
      rw [Option.some.injEq] at hstep
      subst hstep
      obtain ⟨hcd, hrq⟩ := h
      unfold bridgeMeasure
      rw [hcd]
      simp only [if_true, if_false, Bool.false_eq_true]
      omega
    case isFalse h => exact Option.noConfusion hstep
  | takeClosedResult =>
    simp only [bridgeStep] at hstep
    split at hstep
    case isTrue h =>
      rw [Option.some.injEq] at hstep
      subst hstep
      obtain ⟨hcd, hrq, hrc⟩ := h
      unfold bridgeMeasure
      rw [hcd]
      simp only [if_true, if_false, Bool.false_eq_true]
      omega
    case isFalse h => exact Option.noConfusion hstep

theorem bridge_progress {events : Nat} {s : BridgeState} (inv : BridgeInv events s)
    (hterm : ¬(s.consDone = true ∧ s.resClosed = true)) :
    ∃ m s2, bridgeStep events s m = some s2 := by
  by_cases hcl : s.evClosed = true
  · by_cases hrs : s.resSent = true
    · by_cases hrc : s.resClosed = true
      · have hcdne : s.consDone ≠ true := fun hc => hterm ⟨hc, hrc⟩
        have hcd : s.consDone = false := Bool.eq_false_iff.mpr hcdne
        rcases inv.sentDelivery hrs with hq | hd
        · refine ⟨.takeResult,
            { s with resQ := false, delivered := s.delivered + 1, consDone := true }, ?_⟩
          simp only [bridgeStep]
          rw [if_pos ⟨hcd, hq⟩]
        · exact absurd (inv.doneIff.mpr hd) hcdne
      · have hnc : s.resClosed = false := Bool.eq_false_iff.mpr hrc
        refine ⟨.closeResult, { s with resClosed := true }, ?_⟩
        simp only [bridgeStep]
        rw [if_pos ⟨hrs, hnc⟩]
    · have hns : s.resSent = false := Bool.eq_false_iff.mpr hrs
      have hrq : s.resQ = false := by
        cases hq : s.resQ
        · rfl
        · exact absurd (inv.queued hq).1 hrs
      refine ⟨.sendResult, { s with resQ := true, resSent := true }, ?_⟩
      simp only [bridgeStep]
      rw [if_pos ⟨hcl, hns, hrq⟩]
  · have hncl : s.evClosed = false := Bool.eq_false_iff.mpr hcl
    by_cases hlt : s.prodSent < events
    · refine ⟨.emit,
        { s with
          prodSent := s.prodSent + 1
          evQ := if s.evQ.length < 128 then s.evQ ++ [s.prodSent] else s.evQ }, ?_⟩
      simp only [bridgeStep]
      rw [if_pos ⟨hlt, hncl⟩]
    · have heq : s.prodSent = events := le_antisymm inv.sentLe (le_of_not_lt hlt)
      refine ⟨.closeEvents, { s with evClosed := true }, ?_⟩
      simp only [bridgeStep]
      rw [if_pos ⟨heq, hncl⟩]

theorem runBridge_inv {events : Nat} :
    ∀ (ms : List BridgeMove) (s s2 : BridgeState),
      runBridge events s ms = some s2 → BridgeInv events s → BridgeInv events s2 := by
  intro ms
  induction ms with
  | nil =>
    intro s s2 hrun inv
    rw [show runBridge events s [] = some s from rfl, Option.some.injEq] at hrun
    exact hrun ▸ inv
  | cons m rest ih =>
    intro s s2 hrun inv
    rw [show runBridge events s (m :: rest) =
      (match bridgeStep events s m with
       | none => none
       | some s3 => runBridge events s3 rest) from rfl] at hrun
    cases hstep : bridgeStep events s m with
    | none =>
      rw [hstep] at hrun
      exact Option.noConfusion hrun
    | some s3 =>
      rw [hstep] at hrun
      exact ih s3 s2 hrun (bridgeStep_inv hstep inv)

theorem runBridge_length {events : Nat} :
    ∀ (ms : List BridgeMove) (s s2 : BridgeState),
      runBridge events s ms = some s2 →
      ms.length + bridgeMeasure events s2 ≤ bridgeMeasure events s := by
  intro ms
  induction ms with
  | nil =>
    intro s s2 hrun
    rw [show runBridge events s [] = some s from rfl, Option.some.injEq] at hrun
    subst hrun
    simp
  | cons m rest ih =>
    intro s s2 hrun
    rw [show runBridge events s (m :: rest) =
      (match bridgeStep events s m with
       | none => none
       | some s3 => runBridge events s3 rest) from rfl] at hrun
    cases hstep : bridgeStep events s m with
    | none =>
      rw [hstep] at hrun
      exact Option.noConfusion hrun
    | some s3 =>
      rw [hstep] at hrun
      have h1 := ih s3 s2 hrun
      have h2 := bridgeStep_measure hstep
      simp only [List.length_cons]
      omega

/-- Counterexample for C8: when the event channel and the result channel are
both ready simultaneously, Go's select does NOT prefer the result — the model
admits a valid schedule in which the consumer takes the pending event while
the result sits in its channel, refuting "the consumer takes the result
first". -/
theorem C8_counterexample :
    (runBridge 1 initBridge [.emit, .closeEvents, .sendResult, .takeEvent] =
      some ⟨1, [], true, true, true, false, 1, 0, false⟩) ∧
    ¬ (∀ (ms : List BridgeMove) (s : BridgeState),
        runBridge 1 initBridge ms = some s → s.resQ = true → s.evQ ≠ [] →
        s.consDone = false → bridgeStep 1 s .takeEvent = none) := by
  constructor
  · rfl
  · intro h
    have h2 := h [.emit, .closeEvents, .sendResult]
      ⟨1, [0], true, true, true, false, 0, 0, false⟩
      (by rfl) (by rfl) (by decide) (by rfl)
    rw [show bridgeStep 1 ⟨1, [0], true, true, true, false, 0, 0, false⟩ .takeEvent =
      some ⟨1, [], true, true, true, false, 1, 0, false⟩ from rfl] at h2
    exact Option.noConfusion h2

/-- C8 (amended): for every workflow run through the progress bridge and
every schedule, the terminal result is delivered to the consumer at most once
along the way and exactly once by the end: runs are bounded (no infinite
waiting), a state with no enabled move is one where the consumer has
finished with the result delivered exactly once (so the consumer is never
left blocked on a channel that will never produce), and events may be
dropped but never invented.  When both channels are ready the consumer takes
one of them nondeterministically — not necessarily the result. -/
theorem C8_bridge_delivery (events : Nat) (ms : List BridgeMove) (s2 : BridgeState)
    (hrun : runBridge events initBridge ms = some s2) :
    s2.delivered ≤ 1 ∧
    ((∀ m, bridgeStep events s2 m = none) →
      s2.consDone = true ∧ s2.delivered = 1 ∧ s2.consumed ≤ events) ∧
    ms.length ≤ bridgeMeasure events initBridge := by
  have inv2 := runBridge_inv ms initBridge s2 hrun (bridgeInv_init events)
  refine ⟨inv2.deliveredLe, ?_, ?_⟩
  · intro hstuck
    by_cases hterm : s2.consDone = true ∧ s2.resClosed = true
    · refine ⟨hterm.1, inv2.doneIff.mp hterm.1, ?_⟩
      calc s2.consumed ≤ s2.consumed + s2.evQ.length := Nat.le_add_right _ _
        _ ≤ s2.prodSent := inv2.consumedLe
        _ ≤ events := inv2.sentLe
    · obtain ⟨m, s3, hm⟩ := bridge_progress inv2 hterm
      rw [hstuck m] at hm
      exact Option.noConfusion hm
  · have h1 := runBridge_length ms initBridge s2 hrun
    omega

/-- Witness for C8 (amended): a complete two-message run — one event emitted
and consumed, then the result — ends with the result delivered exactly
once. -/
theorem C8_bridge_delivery_witness :
    (⟨1, [], true, false, true, true, 1, 1, true⟩ : BridgeState).delivered ≤ 1 ∧
    (⟨1, [], true, false, true, true, 1, 1, true⟩ : BridgeState).consDone = true :=
  ⟨(C8_bridge_delivery 1
      [.emit, .closeEvents, .sendResult, .closeResult, .takeEvent, .takeResult]
      ⟨1, [], true, false, true, true, 1, 1, true⟩ (by rfl)).1,
   ((C8_bridge_delivery 1
      [.emit, .closeEvents, .sendResult, .closeResult, .takeEvent, .takeResult]
      ⟨1, [], true, false, true, true, 1, 1, true⟩ (by rfl)).2.1
        (by intro m; cases m <;> rfl)).1⟩

end GoSwitcher
